import Mathlib

/-!
Verification of the 40k cheat-sheet pipeline (create_cheat_sheet.py and
streamlit_app.py): name normalization, export parsing, fuzzy catalog
resolution, catalog loading and phase/step aggregation.

Strings are modelled as `List Char` (`Str`).  Python's `str.lower` is
modelled on the ASCII range (the only range relevant to the allowed
character class of `normalize_name`), and the whitespace class `\s` is
modelled by the six ASCII whitespace characters.
-/

set_option autoImplicit false
set_option maxRecDepth 40000

namespace CheatSheet

abbrev Str := List Char

/-- Python `\s` / `str.strip()` whitespace, modelled on ASCII. -/
def isPySpace (c : Char) : Bool :=
  c = ' ' || c = '\t' || c = '\n' || c = '\r' || c = '\x0b' || c = '\x0c'

/-- The character class removed by `re.sub(r"[’’']", "", s)`:
the typographic apostrophe U+2019 and the ASCII apostrophe. -/
def isApos (c : Char) : Bool :=
  c = '’' || c = '\''

/-- The character class kept by `re.sub(r"[^a-z0-9+&/ -]", " ", s)`. -/
def allowedChar (c : Char) : Bool :=
  ('a' ≤ c && c ≤ 'z') || ('0' ≤ c && c ≤ '9') ||
    c = '+' || c = '&' || c = '/' || c = ' ' || c = '-'

/-- Model of Python `str.lower` per character (ASCII range). -/
def lowerChar (c : Char) : Char :=
  if 'A' ≤ c && c ≤ 'Z' then Char.ofNat (c.toNat + 32) else c

/-- Model of Python `str.upper` per character (ASCII range). -/
def upperChar (c : Char) : Char :=
  if 'a' ≤ c && c ≤ 'z' then Char.ofNat (c.toNat - 32) else c

/-- `re.sub(r"[^a-z0-9+&/ -]", " ", s)` per character. -/
def keepOrSpace (c : Char) : Char :=
  if allowedChar c then c else ' '

/-- `re.sub(r"\s+", " ", s)`: every maximal run of whitespace becomes a
single ASCII space. -/
def collapseWS : Str → Str
  | [] => []
  | [c] => if isPySpace c then [' '] else [c]
  | c :: c' :: rest =>
    if isPySpace c then
      if isPySpace c' then collapseWS (c' :: rest)
      else ' ' :: collapseWS (c' :: rest)
    else c :: collapseWS (c' :: rest)

/-- Python `str.lstrip()`. -/
def lstripWS (s : Str) : Str := s.dropWhile isPySpace

/-- Python `str.rstrip()`. -/
def rstripWS (s : Str) : Str := ((s.reverse.dropWhile isPySpace)).reverse

/-- Python `str.strip()`. -/
def stripWS (s : Str) : Str := rstripWS (lstripWS s)

/-- `normalize_name` from create_cheat_sheet.py: lower-case, delete
apostrophes, map every character outside `[a-z0-9+&/ -]` to a space,
collapse whitespace runs to one space, strip. -/
def normalize_name (s : Str) : Str :=
  stripWS (collapseWS (((s.map lowerChar).filter (fun c => !(isApos c))).map keepOrSpace))

/-- No two adjacent whitespace characters. -/
def noWW : Str → Bool
  | c :: c' :: rest => (!(isPySpace c && isPySpace c')) && noWW (c' :: rest)
  | _ => true

/-! ### Fuzzy resolver: model of difflib used by `fuzzy_find`

`fuzzy_find` calls `difflib.get_close_matches(key, choices, n=1, cutoff)`.
`SequenceMatcher.ratio` is `2*M/T` where `M` is the total size of the
matching blocks found by recursive longest-match and `T` the sum of the two
lengths; similarity scores are modelled as exact rationals.  The
`real_quick_ratio`/`quick_ratio` pre-filters of `get_close_matches` are
upper bounds of `ratio` and hence do not change the accepted set.  Junk
heuristics (which only trigger on sequences of length ≥ 200) are not
modelled. -/

/-- Length of the longest common prefix: the longest match anchored at a
given pair of positions. -/
def lcp : Str → Str → Nat
  | a :: as, b :: bs => if a = b then lcp as bs + 1 else 0
  | _, _ => 0

/-- `SequenceMatcher.find_longest_match`: the longest matching block; ties
broken by earliest start in `a`, then earliest start in `b`. -/
def flm (a b : Str) : Nat × Nat × Nat :=
  (List.range (a.length + 1)).foldl (fun acc i =>
    (List.range (b.length + 1)).foldl (fun acc2 j =>
      let k := lcp (a.drop i) (b.drop j)
      if acc2.2.2 < k then (i, j, k) else acc2) acc) (0, 0, 0)

/-- Total size of the matching blocks (`get_matching_blocks`), fuelled
recursion: each recursive call strictly shortens `a`, so fuel
`a.length + 1` always suffices. -/
def matchTotalF : Nat → Str → Str → Nat
  | 0, _, _ => 0
  | fuel + 1, a, b =>
    let t := flm a b
    if t.2.2 = 0 then 0
    else
      matchTotalF fuel (a.take t.1) (b.take t.2.1) + t.2.2 +
        matchTotalF fuel (a.drop (t.1 + t.2.2)) (b.drop (t.2.1 + t.2.2))

def matchTotal (a b : Str) : Nat := matchTotalF (a.length + 1) a b

/-- `SequenceMatcher(None, a, b).ratio()` as an exact rational
(`2.0*M/T`, and `1.0` when both sequences are empty). -/
def similarity (a b : Str) : ℚ :=
  if a.length + b.length = 0 then 1
  else mkRat (2 * matchTotal a b) (a.length + b.length)

/-- Python string `<`: lexicographic by code point. -/
def strLtB : Str → Str → Bool
  | [], [] => false
  | [], _ :: _ => true
  | _ :: _, [] => false
  | a :: as, b :: bs => if a < b then true else if b < a then false else strLtB as bs

/-- Ordering used by `heapq.nlargest` on `(score, string)` pairs. -/
def candLt (p q : ℚ × Str) : Bool :=
  decide (p.1 < q.1) || (decide (p.1 = q.1) && strLtB p.2 q.2)

/-- One step of the running maximum over scored candidates. -/
def bcStep (w : Str) (acc : Option (ℚ × Str)) (x : Str) : Option (ℚ × Str) :=
  match acc with
  | none => some (similarity x w, x)
  | some b => if candLt b (similarity x w, x) then some (similarity x w, x) else some b

/-- Maximum of the scored candidates under the `(score, string)` order,
as computed by `_nlargest(1, result)`. -/
def bestCand (w : Str) (cands : List Str) : Option (ℚ × Str) :=
  cands.foldl (bcStep w) none

/-- Invariant of the running maximum: the accumulator holds an already-seen
candidate with its score, and no seen candidate beats it. -/
def GoodAcc (w : Str) (seen : List Str) (acc : Option (ℚ × Str)) : Prop :=
  (acc = none → seen = []) ∧
  ∀ b, acc = some b → b.2 ∈ seen ∧ b.1 = similarity b.2 w ∧
    ∀ x ∈ seen, candLt b (similarity x w, x) = false

/-- `difflib.get_close_matches(word, choices, n=1, cutoff)`. -/
def get_close_matches1 (word : Str) (choices : List Str) (cutoff : ℚ) : Option Str :=
  (bestCand word (choices.filter
    (fun x => decide (cutoff ≤ similarity x word)))).map (fun p => p.2)

/-- `fuzzy_find` from create_cheat_sheet.py.  The catalog is given by its
key list (`choices = list(units_by_key.keys())`); confidences 1.0, 0.9 and
0.0 are the rationals 1, 9/10 and 0. -/
def fuzzy_find (key : Str) (units_by_key : List Str) (cutoff : ℚ) : Option Str × ℚ :=
  if key ∈ units_by_key then (some key, 1)
  else
    match get_close_matches1 key units_by_key cutoff with
    | some m => (some m, mkRat 9 10)
    | none => (none, 0)

/-! ### Export parser (`parse_export_txt`)

Lines are obtained by splitting on the newline character (Python
`str.splitlines`; the rarer terminators `\r`, `\v`, … are not modelled) and
right-stripping each line.  No line therefore contains a newline. -/

/-- Split on newline characters, keeping a trailing empty piece. -/
def splitOnNl : Str → List Str
  | [] => [[]]
  | c :: rest =>
    if c = '\n' then [] :: splitOnNl rest
    else
      match splitOnNl rest with
      | [] => [[c]]
      | l :: ls => (c :: l) :: ls

/-- Python `str.splitlines` (newline terminators only): an empty text has
no lines, and a final newline does not produce a trailing empty line. -/
def splitlines (t : Str) : List Str :=
  if t = [] then []
  else if t.getLast? = some '\n' then (splitOnNl t).dropLast
  else splitOnNl t

/-- One parsed unit entry: `{display, count, points_each, section}`. -/
structure UnitInfo where
  display : Str
  count : Nat
  points_each : Nat
  section' : Option Str
  deriving Repr, DecidableEq

/-- The army metadata dict of `parse_export_txt`. -/
structure Army where
  title : Option Str
  points_total : Option Nat
  faction : Option Str
  chapter : Option Str
  detachment : Option Str
  format : Option Str
  format_points : Option Nat
  deriving Repr, DecidableEq

/-- `pat` is a prefix of `s` (used for substring containment). -/
def startsWith : Str → Str → Bool
  | [], _ => true
  | _ :: _, [] => false
  | p :: ps, c :: cs => p = c && startsWith ps cs

/-- Python `pat in s`: substring containment. -/
def containsStr : Str → Str → Bool
  | [], pat => startsWith pat []
  | c :: r, pat => startsWith pat (c :: r) || containsStr r pat

/-- Decimal digit run to a number (regex group `(\d+)`). -/
def digitsToNat (ds : Str) : Nat := ds.foldl (fun acc c => acc * 10 + (c.toNat - 48)) 0

/-- Case-insensitive `points?`: consumes `point` and an optional `s`,
returning the remaining characters. -/
def matchPointsWord : Str → Option Str
  | p :: o :: i :: n :: t :: r =>
    if lowerChar p = 'p' ∧ lowerChar o = 'o' ∧ lowerChar i = 'i' ∧
        lowerChar n = 'n' ∧ lowerChar t = 't' then
      some (match r with
        | s0 :: r' => if lowerChar s0 = 's' then r' else s0 :: r'
        | [] => [])
    else none
  | _ => none

/-- `UNIT_LINE_RE = ^([^\n(]+?)\s*\((\d+)\s*points?\)\s*$` applied to a
line, returning the stripped name (`m.group(1).strip()`) and the point
value.  The name part is everything before the first parenthesis. -/
def parseUnitLine (s : Str) : Option (Str × Nat) :=
  let pre := s.takeWhile (fun c => c ≠ '(')
  match s.dropWhile (fun c => c ≠ '(') with
  | [] => none
  | _ :: r1 =>
    if pre = [] then none
    else
      let digits := r1.takeWhile Char.isDigit
      if digits = [] then none
      else
        match matchPointsWord ((r1.dropWhile Char.isDigit).dropWhile isPySpace) with
        | some (')' :: r6) =>
          if r6.all isPySpace then some (stripWS pre, digitsToNat digits) else none
        | _ => none

/-- `SECTION_RE = ^[A-Z][A-Z\s/’'–-]+$`: tail characters of a section
header line. -/
def sectionTailChar (c : Char) : Bool :=
  ('A' ≤ c && c ≤ 'Z') || isPySpace c || c = '/' || c = '’' || c = '\'' ||
    c = '–' || c = '-'

/-- A full-line section header match. -/
def isSectionLine : Str → Bool
  | [] => false
  | c :: rest => ('A' ≤ c && c ≤ 'Z') && !rest.isEmpty && rest.all sectionTailChar

/-- The four play-size format names of `FORMAT_RE`. -/
def formatNames : List Str :=
  ["Combat Patrol".data, "Incursion".data, "Strike Force".data, "Onslaught".data]

/-- Case-insensitive prefix removal; `none` when `pat` is not a prefix. -/
def dropCIPrefix : Str → Str → Option Str
  | [], s => some s
  | _ :: _, [] => none
  | p :: ps, c :: cs => if lowerChar c = lowerChar p then dropCIPrefix ps cs else none

/-- Tail of `FORMAT_RE` after the format name:
`\s*\((\d+)\s*points?\)\s*$`. -/
def parseFormatTail (r : Str) : Option Nat :=
  match r.dropWhile isPySpace with
  | '(' :: r2 =>
    let digits := r2.takeWhile Char.isDigit
    if digits = [] then none
    else
      match matchPointsWord ((r2.dropWhile Char.isDigit).dropWhile isPySpace) with
      | some (')' :: r6) => if r6.all isPySpace then some (digitsToNat digits) else none
      | _ => none
  | _ => none

/-- `FORMAT_RE.match(s)`: returns the original-case matched format name
(`group(1)`) and the point value. -/
def firstFormat : List Str → Str → Option (Str × Nat)
  | [], _ => none
  | f :: fs, s =>
    match dropCIPrefix f s with
    | some rest =>
      match parseFormatTail rest with
      | some n => some (s.take f.length, n)
      | none => firstFormat fs s
    | none => firstFormat fs s

/-- Python `str.title()` (ASCII): uppercase a letter after a non-letter,
lowercase the other letters. -/
def titleCase (s : Str) : Str :=
  (s.foldl (fun (acc : Str × Bool) c =>
    if c.isAlpha then
      (acc.1 ++ [if acc.2 then lowerChar c else upperChar c], true)
    else (acc.1 ++ [c], false)) ([], false)).1

/-- `re.search(r"\((\d+)\s*points?\)", first)` success at the current
position. -/
def parsePointsParen (s : Str) : Option Nat :=
  match s with
  | '(' :: r1 =>
    let digits := r1.takeWhile Char.isDigit
    if digits = [] then none
    else
      match matchPointsWord ((r1.dropWhile Char.isDigit).dropWhile isPySpace) with
      | some (')' :: _) => some (digitsToNat digits)
      | _ => none
  | _ => none

/-- `re.search`: leftmost occurrence of the points pattern. -/
def findPointsAnywhere : Str → Option Nat
  | [] => none
  | c :: rest =>
    match parsePointsParen (c :: rest) with
    | some n => some n
    | none => findPointsAnywhere rest

/-- The stored title: `re.sub(r"\s*\(.*$", "", first).strip() or first` —
the first line truncated at its first parenthesis and stripped, falling
back to the whole line when that leaves nothing. -/
def titleOf (first : Str) : Str :=
  let t := stripWS (first.takeWhile (fun c => c ≠ '('))
  if t = [] then first else t

/-- Title and total points from `lines[0]`. -/
def parseArmyHead (lines : List Str) : Option Str × Option Nat :=
  match lines with
  | [] => (none, none)
  | l0 :: _ =>
    let first := stripWS l0
    if first = [] then (none, none)
    else (some (titleOf first), findPointsAnywhere first)

/-- One line of the metadata scan over `lines[:30]`. -/
def metaStep (a : Army) (l : Str) : Army :=
  let a1 := if containsStr l "Space Marines".data then
    { a with faction := some "Space Marines".data } else a
  let a2 := if containsStr l "Ultramarines".data then
    { a1 with chapter := some "Ultramarines".data } else a1
  let a3 := if containsStr l "Gladius Task Force".data then
    { a2 with detachment := some "Gladius Task Force".data } else a2
  match firstFormat formatNames (stripWS l) with
  | some (g1, n) => { a3 with format := some (titleCase g1), format_points := some n }
  | none => a3

def metaScan (a : Army) (lines : List Str) : Army :=
  (lines.take 30).foldl metaStep a

/-- The explicit skip set of non-unit metadata lines. -/
def knownNames : List Str :=
  ["Space Marines".data, "Ultramarines".data, "Gladius Task Force".data,
    "Anvil Siege Force".data, "Ironstorm Spearhead".data,
    "Firestorm Assault Force".data, "Stormlance Task Force".data,
    "Vanguard Spearhead".data, "1st Company Task Force".data,
    "Librarius Conclave".data]

/-- Lookup in the insertion-ordered units dict. -/
def lookupU : List (Str × UnitInfo) → Str → Option UnitInfo
  | [], _ => none
  | (k, v) :: rest, key => if k = key then some v else lookupU rest key

/-- `units[key]["count"] += 1`: in-place increment of the entry's count. -/
def bumpCount : List (Str × UnitInfo) → Str → List (Str × UnitInfo)
  | [], _ => []
  | (k, v) :: rest, key =>
    if k = key then (k, { v with count := v.count + 1 }) :: rest
    else (k, v) :: bumpCount rest key

/-- Processing one matched unit line: insert `{display, count: 0,
points_each, section}` when the key is fresh, then increment the count. -/
def addUnitLine (units : List (Str × UnitInfo)) (key name : Str) (pts : Nat)
    (sec : Option Str) : List (Str × UnitInfo) :=
  match lookupU units key with
  | none => bumpCount (units ++ [(key, ⟨name, 0, pts, sec⟩)]) key
  | some _ => bumpCount units key

/-- Parser state for the unit loop: current section and units dict. -/
structure PState where
  sec : Option Str
  units : List (Str × UnitInfo)
  deriving Repr, DecidableEq

/-- One iteration of the unit loop of `parse_export_txt` over the
enumerated line `(i, l)`. -/
def stepLine (st : PState) (il : Nat × Str) : PState :=
  let s := stripWS il.2
  if s = [] then st
  else if isSectionLine s then { st with sec := some ((stripWS s).map upperChar) }
  else if il.1 = 0 then st
  else if (firstFormat formatNames s).isSome then st
  else if s ∈ knownNames then st
  else
    match parseUnitLine s with
    | none => st
    | some (name, pts) =>
      { st with units := addUnitLine st.units (normalize_name name) name pts st.sec }

/-- `parse_export_txt`: army metadata and the ordered units dict. -/
def parse_export_txt (text : Str) : Army × List (Str × UnitInfo) :=
  let lines := (splitlines text).map rstripWS
  let head := parseArmyHead lines
  let army := metaScan ⟨head.1, head.2, none, none, none, none, none⟩ lines
  (army, (lines.enum.foldl stepLine ⟨none, []⟩).units)

/-! ### Stratagems: `normalize_timing`, `strat_items_by_phase`,
`add_stratagems_to_timeline`

A timing-window dict may omit any of its keys; a missing `player` value
outside {you, opponent, any} raises a `KeyError` in the prefix lookup, so
the modelled functions return `Option` and propagate that failure. -/

/-- A `when` entry of a stratagem: `{phase, step, player}`, any key may be
absent. -/
structure Timing where
  phase : Option Str
  step : Option Str
  player : Option Str
  deriving Repr, DecidableEq

/-- A stratagem record; `name`/`cp`/`effect`/`detachment`/`when` are
accessed with `.get` (or directly for `name`/`cp` in
`add_stratagems_to_timeline`). -/
structure Strat where
  name : Option Str
  cp : Option Nat
  effect : Option Str
  detachment : List Str
  whens : List Timing
  deriving Repr, DecidableEq

/-- Generic association-list lookup (Python dict `get`). -/
def alookup {α : Type} : List (Str × α) → Str → Option α
  | [], _ => none
  | (k, v) :: rest, key => if k = key then some v else alookup rest key

/-- The fixed step-alias table of `normalize_timing`. -/
def stepAlias : List (Str × Str) :=
  [("after_enemy_selects_targets".data, "start".data),
   ("after_enemy_resolves_attacks".data, "end".data),
   ("after_enemy_ends_move".data, "start".data),
   ("after_enemy_declares_charge".data, "declare".data),
   ("after_enemy_ends_charge_move".data, "move".data),
   ("reinforcements".data, "start".data),
   ("any".data, "start".data)]

/-- `{"you": "🟦", "opponent": "🟥", "any": "🟨"}[who]` — `none` models the
`KeyError` for any other actor value. -/
def prefixFor (who : Str) : Option Str :=
  if who = "you".data then some "🟦".data
  else if who = "opponent".data then some "🟥".data
  else if who = "any".data then some "🟨".data
  else none

/-- `normalize_timing`: defaults phase→command, step→start, player→you,
maps aliased steps, and builds the actor label. -/
def normalize_timing (w : Timing) : Option (Str × Str × Str) :=
  let phase := w.phase.getD "command".data
  let step0 := w.step.getD "start".data
  let who := w.player.getD "you".data
  let step := (alookup stepAlias step0).getD step0
  match prefixFor who with
  | none => none
  | some pre => some (phase, step, pre ++ " Strat · ".data)

/-- Python `html.escape` (with quoting). -/
def htmlEscape (s : Str) : Str :=
  s.foldr (fun c acc =>
    if c = '&' then "&amp;".data ++ acc
    else if c = '<' then "&lt;".data ++ acc
    else if c = '>' then "&gt;".data ++ acc
    else if c = '"' then "&quot;".data ++ acc
    else if c = '\'' then "&#x27;".data ++ acc
    else c :: acc) []

/-- Python `str(n)` for a natural. -/
def natStr (n : Nat) : Str := (Nat.repr n).data

/-- `str(st.get("cp", "?"))`. -/
def cpStr : Option Nat → Str
  | some n => natStr n
  | none => "?".data

/-- A phase-keyed bucket of rendered lines; `defaultdict(list)` creates a
key at its first access, i.e. appends it at the end. -/
abbrev Bucket := List (Str × List Str)

def bucketAdd {α : Type} : List (Str × List α) → Str → α → List (Str × List α)
  | [], key, v => [(key, [v])]
  | (k, vs) :: rest, key, v =>
    if k = key then (k, vs ++ [v]) :: rest
    else (k, vs) :: bucketAdd rest key v

/-- The `<li>` line built by `strat_items_by_phase`. -/
def stratLi (st : Strat) (step label : Str) : Str :=
  "<li>".data ++ label ++ "<b>".data ++ htmlEscape (st.name.getD "—".data) ++
    "</b> (".data ++ cpStr st.cp ++ "CP) — [".data ++ htmlEscape step ++
    "] ".data ++ htmlEscape (st.effect.getD []) ++ "</li>".data

/-- One timing window of one stratagem in `strat_items_by_phase`. -/
def processWhen (st : Strat) (b : Bucket) (w : Timing) : Option Bucket :=
  match normalize_timing w with
  | none => none
  | some (phase, step, label) => some (bucketAdd b phase (stratLi st step label))

/-- The detachment filter of `strat_items_by_phase`:
`detachment_name and (detachment_name not in st.get("detachment", []) and
"All" not in st.get("detachment", []))` — an empty (falsy) name disables
filtering. -/
def skipStrat (d : Option Str) (st : Strat) : Bool :=
  match d with
  | none => false
  | some dn =>
    !dn.isEmpty && !(decide (dn ∈ st.detachment)) &&
      !(decide ("All".data ∈ st.detachment))

/-- One stratagem of `strat_items_by_phase`. -/
def processStrat (d : Option Str) (b : Bucket) (st : Strat) : Option Bucket :=
  if skipStrat d st then some b
  else st.whens.foldlM (processWhen st) b

/-- `strat_items_by_phase(strats, detachment_name)`. -/
def strat_items_by_phase (strats : List Strat) (d : Option Str) : Option Bucket :=
  strats.foldlM (processStrat d) []

/-- Nested phase→step→lines timeline used by
`add_stratagems_to_timeline`. -/
abbrev Timeline := List (Str × Bucket)

/-- `timeline.setdefault(phase, {}).setdefault(step, []).append(box)`. -/
def bucketAdd2 : Timeline → Str → Str → Str → Timeline
  | [], phase, step, box => [(phase, [(step, [box])])]
  | (k, inner) :: rest, phase, step, box =>
    if k = phase then (k, bucketAdd inner step box) :: rest
    else (k, inner) :: bucketAdd2 rest phase step box

/-- One timing window in `add_stratagems_to_timeline`: builds the box
`f"{label}{st['name']} ({st['cp']}CP) — {st.get('effect','')}"` (direct
indexing of `name`/`cp` fails when they are absent). -/
def tlWhen (st : Strat) (t : Timeline) (w : Timing) : Option Timeline :=
  match normalize_timing w with
  | none => none
  | some (phase, step, label) =>
    match st.name, st.cp with
    | some nm, some cp =>
      some (bucketAdd2 t phase step
        (label ++ nm ++ " (".data ++ natStr cp ++ "CP) — ".data ++ st.effect.getD []))
    | _, _ => none

/-- One stratagem in `add_stratagems_to_timeline`: skipped unless the
detachment name is in its list (no wildcard handling here). -/
def tlStratStep (dn : Str) (t : Timeline) (st : Strat) : Option Timeline :=
  if dn ∈ st.detachment then st.whens.foldlM (tlWhen st) t else some t

/-- `add_stratagems_to_timeline(timeline, strats, detachment_name)`. -/
def add_stratagems_to_timeline (tl : Timeline) (strats : List Strat) (dn : Str) :
    Option Timeline :=
  strats.foldlM (tlStratStep dn) tl

/-! ### Catalog loaders: `load_units_from_yaml_dir` and `load_yaml_files`

YAML values are modelled as strings, lists and string-keyed dicts (the
null value and numeric scalars play no role in the loader logic modelled
here).  Documents arrive in sorted path order. -/

inductive YVal where
  | s (v : Str)
  | list (vs : List YVal)
  | dict (kvs : List (Str × YVal))

/-- Python truthiness of a YAML value. -/
def yTruthy : YVal → Bool
  | .s v => !v.isEmpty
  | .list vs => !vs.isEmpty
  | .dict kvs => !kvs.isEmpty

/-- Dict assignment: overwrite in place, append fresh keys at the end. -/
def dictSet {α : Type} : List (Str × α) → Str → α → List (Str × α)
  | [], key, v => [(key, v)]
  | (k, w) :: rest, key, v =>
    if k = key then (k, v) :: rest
    else (k, w) :: dictSet rest key v

/-- The built-in default faction helpers of `load_units_from_yaml_dir`. -/
def defaultFactionHelpers : YVal :=
  .dict [("turn_start".data, .list
      [.s "Déclarer/mettre à jour les effets de détachement/faction.".data]),
    ("generic_reminders".data, .dict [
      ("command".data, .list [.s "Gagner CP ; tests d’ébranlement ; poser auras/buffs.".data]),
      ("movement".data, .list [.s "Mesurer menaces ; garder couvert/lignes de vue.".data]),
      ("shooting".data, .list [.s "Choisir cibles intelligemment.".data]),
      ("charge".data, .list [.s "Penser multi-charge ; garder 1 CP pour relance critique.".data]),
      ("fight".data, .list [.s "Activer dans le bon ordre ; pile-in/consolidation pour voler OC.".data]),
      ("end".data, .list [.s "Compter OC ; scorer primaires/secondaires ; valider actions.".data])])]

/-- `isinstance(data, dict) and "faction_helpers" in data`, returning the
block. -/
def fhBlock : YVal → Option YVal
  | .dict kvs => alookup kvs "faction_helpers".data
  | _ => none

/-- `units_by_key[normalize_name(u["name"])] = u` for dict entries with a
truthy string name (a non-string name would raise inside
`normalize_name`). -/
def mergeUnit (ub : List (Str × YVal)) (u : YVal) : List (Str × YVal) :=
  match u with
  | .dict kvs =>
    match alookup kvs "name".data with
    | some (.s nm) => if !nm.isEmpty then dictSet ub (normalize_name nm) u else ub
    | _ => ub
  | _ => ub

/-- One document of `load_units_from_yaml_dir`: capture the first
faction-helpers block, merge the `units` list into the catalog. -/
def loadStep (st : List (Str × YVal) × Option YVal) (data : YVal) :
    List (Str × YVal) × Option YVal :=
  let fh := if st.2.isNone && (fhBlock data).isSome then fhBlock data else st.2
  let ub := match data with
    | .dict kvs =>
      match alookup kvs "units".data with
      | some (.list us) => us.foldl mergeUnit st.1
      | _ => st.1
    | _ => st.1
  (ub, fh)

/-- `load_units_from_yaml_dir`: catalog and faction helpers (defaulted when
no document provided a block). -/
def load_units_from_yaml_dir (docs : List YVal) : List (Str × YVal) × YVal :=
  let r := docs.foldl loadStep ([], none)
  (r.1, r.2.getD defaultFactionHelpers)

/-- The corpus returned by streamlit's `load_yaml_files`. -/
structure Corpus where
  units : List YVal
  phases : YVal
  faction_helpers : YVal
  stratagems : List YVal

/-- One uploaded document of `load_yaml_files`: first-seen phases and
faction helpers, accumulated units and stratagems. -/
def lyStep (st : Option YVal × Option YVal × List YVal × List YVal)
    (d : List (Str × YVal)) : Option YVal × Option YVal × List YVal × List YVal :=
  let phases := if st.1.isNone && (alookup d "phases".data).isSome
    then alookup d "phases".data else st.1
  let fh := if st.2.1.isNone && (alookup d "faction_helpers".data).isSome
    then alookup d "faction_helpers".data else st.2.1
  let us := match alookup d "units".data with
    | some (.list l) => st.2.2.1 ++ l
    | _ => st.2.2.1
  let ss := match alookup d "stratagems".data with
    | some (.list l) => st.2.2.2 ++ l
    | _ => st.2.2.2
  (phases, fh, us, ss)

/-- streamlit `load_yaml_files`: missing phases default to
`{"order": [], "steps": {}}` and missing faction helpers to `{}`. -/
def load_yaml_files (docs : List (List (Str × YVal))) : Corpus :=
  let r := docs.foldl lyStep (none, none, [], [])
  { units := r.2.2.1,
    phases := r.1.getD (.dict [("order".data, .list []), ("steps".data, .dict [])]),
    faction_helpers := r.2.1.getD (.dict []),
    stratagems := r.2.2.2 }

/-! ### Phase aggregation: `build_phase_board` (create_cheat_sheet.py) and
`collect_phase_tips` (streamlit_app.py) -/

/-- The fixed `PHASE_ORDER` of create_cheat_sheet.py. -/
def PHASE_ORDER : List (Str × Str) :=
  [("command".data, "Phase de Commandement".data),
   ("movement".data, "Phase de Mouvement".data),
   ("shooting".data, "Phase de Tir".data),
   ("charge".data, "Phase de Charge".data),
   ("fight".data, "Phase de Combat".data),
   ("end".data, "Fin de tour".data)]

/-- A phase's play-tips payload: a flat list of tips or a step-keyed
mapping. -/
inductive Payload where
  | flat (msgs : List Str)
  | stepped (m : List (Str × List Str))

/-- A catalog unit as used by the phase board: its canonical name (absent
when the record has no `name` key) and the `play_tips.phases` mapping. -/
structure CUnit where
  name : Option Str
  play_tips : List (Str × Payload)

/-- A matched unit: the export display name and the resolved catalog unit
(absent for unresolved units). -/
structure MUnit where
  display : Str
  unit : Option CUnit

/-- create_cheat_sheet faction helpers: `generic_reminders` is a
phase-keyed mapping of flat reminder lists. -/
structure FHc where
  generic_reminders : List (Str × List Str)

/-- `(faction_helpers or {}).get("generic_reminders") or {}`. -/
def genOf : Option FHc → List (Str × List Str)
  | some f => f.generic_reminders
  | none => []

/-- `collect_phase_tips_for_unit`: phase → bullets (`[{step}] {tip}` for
step-keyed tips, the tips themselves for flat lists); phases with no
bullets are omitted. -/
def collect_phase_tips_for_unit (_faction_helpers : Option FHc) (u : CUnit) :
    List (Str × List Str) :=
  PHASE_ORDER.foldl (fun out kl =>
    let bullets := match alookup u.play_tips kl.1 with
      | some (.stepped sp) =>
        sp.foldl (fun bs sv =>
          if !sv.2.isEmpty then
            bs ++ sv.2.map (fun t => "[".data ++ sv.1 ++ "] ".data ++ t)
          else bs) []
      | some (.flat l) => l
      | none => []
    if !bullets.isEmpty then out ++ [(kl.1, bullets)] else out) []

/-- The per-unit items of one phase box: nothing for an unresolved unit,
otherwise one `<li>` per bullet prefixed with `u.get("name",
mu["display"])`. -/
def unit_phase_items (fh : Option FHc) (key : Str) (mu : MUnit) : List Str :=
  match mu.unit with
  | none => []
  | some u =>
    let bullets := (alookup (collect_phase_tips_for_unit fh u) key).getD []
    bullets.map (fun b => "<li><b>".data ++ htmlEscape (u.name.getD mu.display) ++
      "</b> — ".data ++ htmlEscape b ++ "</li>".data)

/-- The generic-reminder items of one phase box. -/
def gen_items (fh : Option FHc) (key : Str) : List Str :=
  let gen_list := (alookup (genOf fh) key).getD []
  if !gen_list.isEmpty then
    "<li><b>Rappels généraux :</b></li>".data ::
      gen_list.map (fun x => "<li class='small'>".data ++ htmlEscape x ++ "</li>".data)
  else []

/-- All items of one phase box: generic reminders, then per-unit tips in
unit order, then the stratagem lines of that phase. -/
def phase_items (fh : Option FHc) (mus : List MUnit) (strats : Bucket) (key : Str) :
    List Str :=
  gen_items fh key ++ (mus.map (unit_phase_items fh key)).flatten ++
    (alookup strats key).getD []

/-- `alt_item`: the explicit empty-state placeholder. -/
def altItem : Str := "<li class='small'>&mdash;</li>".data

/-- One phase box of the board; an empty item list renders the
placeholder. -/
def phase_box (fh : Option FHc) (mus : List MUnit) (strats : Bucket)
    (key label : Str) : Str :=
  let items := phase_items fh mus strats key
  "<div class='box'><div class='phase'>".data ++ htmlEscape label ++
    "</div><ul>".data ++ (if !items.isEmpty then items.flatten else altItem) ++
    "</ul></div>".data

/-- The six boxes of `build_phase_board`, in `PHASE_ORDER` order. -/
def phaseBoxes (fh : Option FHc) (mus : List MUnit) (strats : Bucket) : List Str :=
  PHASE_ORDER.map (fun kl => phase_box fh mus strats kl.1 kl.2)

/-- `build_phase_board`: three boxes per visual column. -/
def build_phase_board (fh : Option FHc) (mus : List MUnit) (strats : Bucket) : Str :=
  let boxes := phaseBoxes fh mus strats
  "\n<div class=\"phaseboard\">\n  <h2>Timeline par phase</h2>\n  <div class=\"colwrap\">\n    <div>".data ++
    (boxes.take 3).flatten ++ "</div>\n    <div>".data ++ (boxes.drop 3).flatten ++
    "</div>\n  </div>\n</div>".data

/-- streamlit phases definition: ordered phases and per-phase step
lists. -/
structure SPhases where
  order : List Str
  steps : List (Str × List Str)

/-- streamlit faction helpers: per-phase payload, flat or step-keyed. -/
structure SFH where
  generic_reminders : List (Str × Payload)

/-- A selected streamlit unit: name (required by `u['name']`) and the
`play_tips.phases` step-keyed mapping. -/
structure SUnit where
  name : Str
  play_tips : List (Str × List (Str × List Str))

/-- The phase→step→messages aggregation structure. -/
abbrev Bucket2 := List (Str × List (Str × List Str))

/-- In-place update of the value at a present key. -/
def modifyAt {α : Type} : List (Str × α) → Str → (α → α) → List (Str × α)
  | [], _, _ => []
  | (k, v) :: rest, key, f =>
    if k = key then (k, f v) :: rest else (k, v) :: modifyAt rest key f

/-- `d[s].extend(more)` for a present step key. -/
def extendAt {α : Type} : List (Str × List α) → Str → List α → List (Str × List α)
  | [], _, _ => []
  | (k, vs) :: rest, key, more =>
    if k = key then (k, vs ++ more) :: rest else (k, vs) :: extendAt rest key more

/-- `result[p][s].extend(msgs)`. -/
def extendAt2 (r : Bucket2) (p s : Str) (msgs : List Str) : Bucket2 :=
  modifyAt r p (fun d => extendAt d s msgs)

/-- `{s: [] for s in steps}`. -/
def stepsInit (steps : List Str) : List (Str × List Str) :=
  steps.foldl (fun d s => dictSet d s []) []

/-- `result[phase] = {s: [] for s in steps.get(phase, [])}` over the
declared order. -/
def initPh (phases : SPhases) : Bucket2 :=
  phases.order.foldl
    (fun r p => dictSet r p (stepsInit ((alookup phases.steps p).getD []))) []

/-- One generic-reminder entry of `collect_phase_tips`: a flat payload goes
to the "start" step (or the first declared step), a step-keyed payload to
its declared steps — only into phases/steps present in the result. -/
def genOne (r : Bucket2) (pp : Str × Payload) : Bucket2 :=
  match pp.2 with
  | .flat msgs =>
    match alookup r pp.1 with
    | some d =>
      if !d.isEmpty then
        extendAt2 r pp.1
          (if (alookup d "start".data).isSome then "start".data
            else (d.headD ([], [])).1) msgs
      else r
    | none => r
  | .stepped m =>
    m.foldl (fun r2 sv =>
      match alookup r2 pp.1 with
      | some d => if (alookup d sv.1).isSome then extendAt2 r2 pp.1 sv.1 sv.2 else r2
      | none => r2) r

/-- One step entry of one unit's play tips: extends a declared step with
`[{u.name}] {m}`-prefixed messages. -/
def unitPhaseStep (nm : Str) (p : Str) (r : Bucket2) (sv : Str × List Str) : Bucket2 :=
  match alookup r p with
  | some d =>
    if (alookup d sv.1).isSome && !sv.2.isEmpty then
      extendAt2 r p sv.1 (sv.2.map (fun m => "[".data ++ nm ++ "] ".data ++ m))
    else r
  | none => r

/-- One unit of the play-tips pass of `collect_phase_tips`. -/
def unitTipsStep (r : Bucket2) (u : SUnit) : Bucket2 :=
  u.play_tips.foldl (fun r2 pt =>
    match alookup r2 pt.1 with
    | none => r2
    | some _ => pt.2.foldl (unitPhaseStep u.name pt.1) r2) r

/-- streamlit `collect_phase_tips`. -/
def collect_phase_tips (phases : SPhases) (fh : SFH)
    (selected_units : List SUnit) : Bucket2 :=
  let afterGen := fh.generic_reminders.foldl genOne (initPh phases)
  selected_units.foldl unitTipsStep afterGen

/-- A message sits in the (p, s) bucket of the aggregation. -/
def tipMem (r : Bucket2) (p s : Str) (msg : Str) : Prop :=
  ∃ d msgs, alookup r p = some d ∧ alookup d s = some msgs ∧ msg ∈ msgs

/-- The shape of the aggregation: its phases with their step keys,
forgetting the reminder lists. -/
def shapeOf (r : Bucket2) : List (Str × List Str) :=
  r.map (fun pd => (pd.1, pd.2.map Prod.fst))

end CheatSheet

namespace CheatSheet

theorem mapId {α : Type} (f : α → α) (l : List α) (h : ∀ c ∈ l, f c = c) :
    l.map f = l := by
  induction l with
  | nil => rfl
  | cons c t ih =>
    simp only [List.map_cons]
    rw [h c (List.mem_cons_self c t), ih (fun x hx => h x (List.mem_cons_of_mem c hx))]

theorem filterId {α : Type} (p : α → Bool) (l : List α) (h : ∀ c ∈ l, p c = true) :
    l.filter p = l := by
  induction l with
  | nil => rfl
  | cons c t ih =>
    rw [List.filter_cons, if_pos (h c (List.mem_cons_self c t)),
      ih (fun x hx => h x (List.mem_cons_of_mem c hx))]

theorem allowed_keepOrSpace (c : Char) : allowedChar (keepOrSpace c) = true := by
  unfold keepOrSpace
  by_cases h : allowedChar c = true
  · rw [if_pos h]; exact h
  · rw [if_neg h]; decide

theorem allowed_lower (c : Char) (h : allowedChar c = true) : lowerChar c = c := by
  unfold lowerChar
  simp only [allowedChar, Bool.or_eq_true, Bool.and_eq_true, decide_eq_true_eq] at h
  rcases h with ((((((⟨ha, _⟩ | ⟨_, h9⟩) | h) | h) | h) | h) | h)
  · rw [if_neg]
    intro hAZ
    simp only [Bool.and_eq_true, decide_eq_true_eq] at hAZ
    have : ('a' : Char) ≤ 'Z' := le_trans ha hAZ.2
    exact absurd this (by decide)
  · rw [if_neg]
    intro hAZ
    simp only [Bool.and_eq_true, decide_eq_true_eq] at hAZ
    have : ('A' : Char) ≤ '9' := le_trans hAZ.1 h9
    exact absurd this (by decide)
  all_goals (subst h; decide)

theorem allowed_not_apos (c : Char) (h : allowedChar c = true) : isApos c = false := by
  cases hA : isApos c with
  | false => rfl
  | true =>
    simp only [isApos, Bool.or_eq_true, decide_eq_true_eq] at hA
    rcases hA with h1 | h1 <;> (subst h1; exact absurd h (by decide))

theorem allowed_keep (c : Char) (h : allowedChar c = true) : keepOrSpace c = c := by
  unfold keepOrSpace; rw [if_pos h]

theorem allowed_ws_eq_space (c : Char) (h : allowedChar c = true)
    (hw : isPySpace c = true) : c = ' ' := by
  simp only [isPySpace, Bool.or_eq_true, decide_eq_true_eq] at hw
  rcases hw with ((((h1 | h1) | h1) | h1) | h1) | h1
  · exact h1
  all_goals (subst h1; exact absurd h (by decide))

theorem mem_collapseWS {c : Char} : ∀ {l : Str}, c ∈ collapseWS l → c ∈ l ∨ c = ' '
  | [], h => by simp [collapseWS] at h
  | [c'], h => by
    by_cases hw : isPySpace c' = true
    · simp [collapseWS, hw] at h; right; exact h
    · simp [collapseWS, hw] at h; left; simp [h]
  | c1 :: c2 :: rest, h => by
    by_cases h1 : isPySpace c1 = true
    · by_cases h2 : isPySpace c2 = true
      · simp only [collapseWS, h1, h2, if_pos] at h
        rcases mem_collapseWS h with hm | hm
        · left; exact List.mem_cons_of_mem _ hm
        · right; exact hm
      · simp only [collapseWS, h1, h2] at h
        simp only [if_pos, if_neg, Bool.false_eq_true, not_false_iff] at h
        rcases List.mem_cons.mp h with hm | hm
        · right; exact hm
        · rcases mem_collapseWS hm with hm' | hm'
          · left; exact List.mem_cons_of_mem _ hm'
          · right; exact hm'
    · simp only [collapseWS, h1] at h
      simp only [if_neg, Bool.false_eq_true, not_false_iff] at h
      rcases List.mem_cons.mp h with hm | hm
      · left; simp [hm]
      · rcases mem_collapseWS hm with hm' | hm'
        · left; exact List.mem_cons_of_mem _ hm'
        · right; exact hm'

theorem collapseWS_head : ∀ (c : Char) (t : Str),
    (collapseWS (c :: t)).head? = some (if isPySpace c then ' ' else c)
  | c, [] => by
    by_cases hw : isPySpace c = true <;> simp [collapseWS, hw]
  | c, c' :: t => by
    by_cases h1 : isPySpace c = true
    · by_cases h2 : isPySpace c' = true
      · have ih := collapseWS_head c' t
        simp only [collapseWS, h1, h2, if_pos]
        rw [ih, h2, if_pos rfl]
      · simp [collapseWS, h1, h2]
    · simp [collapseWS, h1]

theorem collapseWS_wsSpace {c : Char} : ∀ {l : Str},
    c ∈ collapseWS l → isPySpace c = true → c = ' '
  | [], h, _ => by simp [collapseWS] at h
  | [c'], h, hw => by
    by_cases h1 : isPySpace c' = true
    · simp [collapseWS, h1] at h; exact h
    · simp [collapseWS, h1] at h
      subst h; exact absurd hw h1
  | c1 :: c2 :: rest, h, hw => by
    by_cases h1 : isPySpace c1 = true
    · by_cases h2 : isPySpace c2 = true
      · simp only [collapseWS, h1, h2, if_pos] at h
        exact collapseWS_wsSpace h hw
      · simp only [collapseWS, h1, h2] at h
        simp only [if_pos, if_neg, Bool.false_eq_true, not_false_iff] at h
        rcases List.mem_cons.mp h with hm | hm
        · exact hm
        · exact collapseWS_wsSpace hm hw
    · simp only [collapseWS, h1] at h
      simp only [if_neg, Bool.false_eq_true, not_false_iff] at h
      rcases List.mem_cons.mp h with hm | hm
      · subst hm; exact absurd hw h1
      · exact collapseWS_wsSpace hm hw

theorem noWW_cons {c : Char} {t : Str} (h : noWW (c :: t) = true) : noWW t = true := by
  cases t with
  | nil => rfl
  | cons c' r =>
    simp only [noWW, Bool.and_eq_true] at h
    exact h.2

theorem collapseWS_noWW : ∀ (l : Str), noWW (collapseWS l) = true
  | [] => rfl
  | [c] => by
    by_cases hw : isPySpace c = true <;> simp [collapseWS, hw, noWW]
  | c1 :: c2 :: rest => by
    have ih := collapseWS_noWW (c2 :: rest)
    by_cases h1 : isPySpace c1 = true
    · by_cases h2 : isPySpace c2 = true
      · simp only [collapseWS, h1, h2, if_pos]
        exact ih
      · simp only [collapseWS, h1, h2]
        simp only [if_pos, if_neg, Bool.false_eq_true, not_false_iff]
        have hh := collapseWS_head c2 rest
        rw [if_neg h2] at hh
        cases hcl : collapseWS (c2 :: rest) with
        | nil => simp [noWW]
        | cons x xs =>
          rw [hcl] at hh ih
          simp only [List.head?_cons, Option.some_inj] at hh
          subst hh
          simp only [noWW, Bool.and_eq_true]
          refine ⟨?_, ih⟩
          simp [h2]
    · simp only [collapseWS, h1]
      simp only [if_neg, Bool.false_eq_true, not_false_iff]
      cases hcl : collapseWS (c2 :: rest) with
      | nil => simp [noWW]
      | cons x xs =>
        rw [hcl] at ih
        simp only [noWW, Bool.and_eq_true]
        refine ⟨?_, ih⟩
        simp [h1]

theorem collapseWS_fixed : ∀ (l : Str), noWW l = true →
    (∀ c ∈ l, isPySpace c = true → c = ' ') → collapseWS l = l
  | [], _, _ => rfl
  | [c], _, hws => by
    by_cases hw : isPySpace c = true
    · have := hws c (List.mem_singleton_self c) hw
      subst this; simp [collapseWS]
    · simp [collapseWS, hw]
  | c1 :: c2 :: rest, hn, hws => by
    have hn' : noWW (c2 :: rest) = true := noWW_cons hn
    have ih := collapseWS_fixed (c2 :: rest) hn'
      (fun c hc hw => hws c (List.mem_cons_of_mem _ hc) hw)
    by_cases h1 : isPySpace c1 = true
    · have hc1 : c1 = ' ' := hws c1 (List.mem_cons_self _ _) h1
      by_cases h2 : isPySpace c2 = true
      · exfalso
        simp only [noWW, Bool.and_eq_true] at hn
        rw [h1, h2] at hn
        simp at hn
      · simp only [collapseWS, h1, h2]
        simp only [if_pos, if_neg, Bool.false_eq_true, not_false_iff]
        rw [ih, hc1]
    · simp only [collapseWS, h1]
      simp only [if_neg, Bool.false_eq_true, not_false_iff]
      rw [ih]

theorem head?_dropWhile {p : Char → Bool} : ∀ {l : Str} {c : Char},
    (l.dropWhile p).head? = some c → p c = false
  | [], c, h => by simp [List.dropWhile] at h
  | x :: t, c, h => by
    by_cases hx : p x = true
    · rw [List.dropWhile_cons, if_pos hx] at h
      exact head?_dropWhile h
    · rw [List.dropWhile_cons, if_neg hx] at h
      simp only [List.head?_cons, Option.some_inj] at h
      subst h
      exact Bool.not_eq_true _ ▸ hx

theorem noWW_append_left : ∀ (a b : Str), noWW (a ++ b) = true → noWW a = true
  | [], _, _ => rfl
  | [_], _, _ => rfl
  | x :: y :: a', b, h => by
    simp only [List.cons_append, noWW, Bool.and_eq_true] at h ⊢
    exact ⟨h.1, noWW_append_left (y :: a') b h.2⟩

theorem noWW_append_right : ∀ (a b : Str), noWW (a ++ b) = true → noWW b = true
  | [], _, h => h
  | _ :: a', b, h => noWW_append_right a' b (noWW_cons h)

theorem rstripWS_prefix_decomp (l : Str) :
    l = rstripWS l ++ (l.reverse.takeWhile isPySpace).reverse := by
  unfold rstripWS
  conv_lhs => rw [← List.reverse_reverse l,
    ← List.takeWhile_append_dropWhile isPySpace l.reverse]
  rw [List.reverse_append]

theorem lstripWS_suffix_decomp (l : Str) :
    l = l.takeWhile isPySpace ++ lstripWS l := by
  unfold lstripWS
  rw [List.takeWhile_append_dropWhile]

theorem mem_stripWS {c : Char} {l : Str} (h : c ∈ stripWS l) : c ∈ l := by
  unfold stripWS at h
  have h1 : c ∈ lstripWS l := by
    rw [rstripWS_prefix_decomp (lstripWS l)]
    exact List.mem_append_left _ h
  rw [lstripWS_suffix_decomp l]
  exact List.mem_append_right _ h1

theorem head?_append_of_ne_nil {a : Str} (b : Str) (h : a ≠ []) :
    (a ++ b).head? = a.head? := by
  cases a with
  | nil => exact absurd rfl h
  | cons x t => rfl

theorem strip_fixed (l : Str)
    (hh : ∀ c, l.head? = some c → isPySpace c = false)
    (hl : ∀ c, l.getLast? = some c → isPySpace c = false) :
    stripWS l = l := by
  have h1 : lstripWS l = l := by
    cases l with
    | nil => rfl
    | cons x t =>
      unfold lstripWS
      rw [List.dropWhile_cons, if_neg]
      rw [hh x rfl]
      simp
  unfold stripWS
  rw [h1]
  unfold rstripWS
  cases hr : l.reverse with
  | nil =>
    have : l = [] := by
      have := congrArg List.reverse hr
      simpa using this
    subst this; rfl
  | cons x t =>
    have hx : isPySpace x = false := by
      apply hl
      rw [← List.head?_reverse, hr]
      rfl
    have h2 : List.dropWhile isPySpace (x :: t) = x :: t := by
      rw [List.dropWhile_cons, if_neg (by simp [hx])]
    rw [h2, ← hr, List.reverse_reverse]

theorem noWW_stripWS {l : Str} (h : noWW l = true) : noWW (stripWS l) = true := by
  have h1 : noWW (lstripWS l) = true :=
    noWW_append_right _ _ (lstripWS_suffix_decomp l ▸ h)
  exact noWW_append_left _ _ (rstripWS_prefix_decomp (lstripWS l) ▸ h1)

theorem head?_stripWS {l : Str} {c : Char} (h : (stripWS l).head? = some c) :
    isPySpace c = false := by
  unfold stripWS at h
  have hne : rstripWS (lstripWS l) ≠ [] := by
    intro h0; rw [h0] at h; simp at h
  have hhead : (lstripWS l).head? = some c := by
    conv_lhs => rw [rstripWS_prefix_decomp (lstripWS l)]
    rw [head?_append_of_ne_nil _ hne]
    exact h
  unfold lstripWS at hhead
  exact head?_dropWhile hhead

theorem getLast?_stripWS {l : Str} {c : Char} (h : (stripWS l).getLast? = some c) :
    isPySpace c = false := by
  unfold stripWS rstripWS at h
  rw [List.getLast?_reverse] at h
  exact head?_dropWhile h

theorem norm_chars {s : Str} {c : Char} (h : c ∈ normalize_name s) :
    allowedChar c = true := by
  unfold normalize_name at h
  have h1 := mem_stripWS h
  rcases mem_collapseWS h1 with hm | hm
  · rcases List.mem_map.mp hm with ⟨y, _, hy⟩
    rw [← hy]
    exact allowed_keepOrSpace y
  · subst hm; decide

theorem norm_noWW (s : Str) : noWW (normalize_name s) = true := by
  unfold normalize_name
  exact noWW_stripWS (collapseWS_noWW _)

theorem norm_head {s : Str} {c : Char} (h : (normalize_name s).head? = some c) :
    isPySpace c = false := by
  unfold normalize_name at h
  exact head?_stripWS h

theorem norm_last {s : Str} {c : Char} (h : (normalize_name s).getLast? = some c) :
    isPySpace c = false := by
  unfold normalize_name at h
  exact getLast?_stripWS h

/-- Claim C7: normalization is idempotent — `normalize_name` applied to its
own output returns that output unchanged, for every input string. -/
theorem claim_C7_normalize_idempotent (s : Str) :
    normalize_name (normalize_name s) = normalize_name s := by
  set n := normalize_name s with hn
  have hchars : ∀ c ∈ n, allowedChar c = true := by
    intro c h
    exact norm_chars (hn ▸ h)
  have h1 : n.map lowerChar = n :=
    mapId _ _ (fun c hc => allowed_lower c (hchars c hc))
  have h2 : n.filter (fun c => !(isApos c)) = n :=
    filterId _ _ (fun c hc => by rw [allowed_not_apos c (hchars c hc)]; rfl)
  have h3 : n.map keepOrSpace = n :=
    mapId _ _ (fun c hc => allowed_keep c (hchars c hc))
  have h4 : collapseWS n = n :=
    collapseWS_fixed n (hn ▸ norm_noWW s)
      (fun c hc hw => allowed_ws_eq_space c (hchars c hc) hw)
  have h5 : stripWS n = n := by
    apply strip_fixed
    · intro c hc
      exact norm_head (hn ▸ hc)
    · intro c hc
      exact norm_last (hn ▸ hc)
  conv_lhs => unfold normalize_name
  rw [h1, h2, h3, h4, h5]

theorem strLtB_irrefl : ∀ a : Str, strLtB a a = false
  | [] => rfl
  | c :: t => by
    unfold strLtB
    rw [if_neg (lt_irrefl c), if_neg (lt_irrefl c)]
    exact strLtB_irrefl t

theorem strLtB_trans : ∀ (a b c : Str),
    strLtB a b = true → strLtB b c = true → strLtB a c = true
  | _, [], [], _, h2 => by simp [strLtB] at h2
  | _, _ :: _, [], _, h2 => by simp [strLtB] at h2
  | [], [], _ :: _, h1, _ => by simp [strLtB] at h1
  | _ :: _, [], _ :: _, h1, _ => by simp [strLtB] at h1
  | [], _ :: _, _ :: _, _, _ => rfl
  | a :: as, b :: bs, c :: cs, h1, h2 => by
    unfold strLtB at h1 h2 ⊢
    by_cases hab : a < b
    · by_cases hbc : b < c
      · rw [if_pos (lt_trans hab hbc)]
      · rw [if_neg hbc] at h2
        by_cases hcb : c < b
        · rw [if_pos hcb] at h2; exact absurd h2 (by simp)
        · have hbceq : b = c := le_antisymm (not_lt.mp hcb) (not_lt.mp hbc)
          subst hbceq
          rw [if_pos hab]
    · rw [if_neg hab] at h1
      by_cases hba : b < a
      · rw [if_pos hba] at h1; exact absurd h1 (by simp)
      · have habeq : a = b := le_antisymm (not_lt.mp hba) (not_lt.mp hab)
        subst habeq
        rw [if_neg hab] at h1
        by_cases hac : a < c
        · rw [if_pos hac]
        · rw [if_neg hac] at h2 ⊢
          by_cases hca : c < a
          · rw [if_pos hca] at h2; exact absurd h2 (by simp)
          · rw [if_neg hca] at h2 ⊢
            exact strLtB_trans as bs cs h1 h2

theorem strLtB_conn : ∀ (a b : Str), strLtB a b = false → strLtB b a = true ∨ a = b
  | [], [], _ => Or.inr rfl
  | [], _ :: _, h => by simp [strLtB] at h
  | _ :: _, [], _ => Or.inl rfl
  | a :: as, b :: bs, h => by
    unfold strLtB at h ⊢
    by_cases hab : a < b
    · rw [if_pos hab] at h; exact absurd h (by simp)
    · rw [if_neg hab] at h
      by_cases hba : b < a
      · rw [if_pos hba]; exact Or.inl rfl
      · rw [if_neg hba] at h ⊢
        have habeq : a = b := le_antisymm (not_lt.mp hba) (not_lt.mp hab)
        subst habeq
        rw [if_neg hab]
        rcases strLtB_conn as bs h with h' | h'
        · exact Or.inl h'
        · exact Or.inr (by rw [h'])

theorem candLt_irrefl (p : ℚ × Str) : candLt p p = false := by
  unfold candLt
  rw [strLtB_irrefl]
  simp

theorem candLt_trans {p q r : ℚ × Str} (h1 : candLt p q = true)
    (h2 : candLt q r = true) : candLt p r = true := by
  unfold candLt at h1 h2 ⊢
  simp only [Bool.or_eq_true, Bool.and_eq_true, decide_eq_true_eq] at h1 h2 ⊢
  rcases h1 with h1 | ⟨h1e, h1s⟩
  · rcases h2 with h2 | ⟨h2e, _⟩
    · exact Or.inl (lt_trans h1 h2)
    · exact Or.inl (h2e ▸ h1)
  · rcases h2 with h2 | ⟨h2e, h2s⟩
    · exact Or.inl (by rw [h1e]; exact h2)
    · exact Or.inr ⟨h1e.trans h2e, strLtB_trans _ _ _ h1s h2s⟩

theorem bcStep_good {w : Str} {seen : List Str} {acc : Option (ℚ × Str)} {x : Str}
    (h : GoodAcc w seen acc) : GoodAcc w (seen ++ [x]) (bcStep w acc x) := by
  obtain ⟨hn, hs⟩ := h
  cases acc with
  | none =>
    have hseen : seen = [] := hn rfl
    subst hseen
    refine ⟨fun h0 => by simp [bcStep] at h0, ?_⟩
    intro b hb
    simp only [bcStep, Option.some_inj] at hb
    subst hb
    refine ⟨by simp, rfl, ?_⟩
    intro y hy
    simp only [List.nil_append, List.mem_singleton] at hy
    subst hy
    exact candLt_irrefl _
  | some p =>
    obtain ⟨hp1, hp2, hp3⟩ := hs p rfl
    by_cases hlt : candLt p (similarity x w, x) = true
    · have hstep : bcStep w (some p) x = some (similarity x w, x) := by
        simp [bcStep, hlt]
      rw [hstep]
      refine ⟨fun h0 => by simp at h0, ?_⟩
      intro b hb
      simp only [Option.some_inj] at hb
      subst hb
      refine ⟨List.mem_append_right _ (by simp), rfl, ?_⟩
      intro y hy
      rcases List.mem_append.mp hy with hy | hy
      · cases hcl : candLt (similarity x w, x) (similarity y w, y) with
        | false => rfl
        | true => exact absurd (candLt_trans hlt hcl) (by rw [hp3 y hy]; simp)
      · simp only [List.mem_singleton] at hy
        subst hy
        exact candLt_irrefl _
    · have hstep : bcStep w (some p) x = some p := by
        simp [bcStep, hlt]
      rw [hstep]
      refine ⟨fun h0 => by simp at h0, ?_⟩
      intro b hb
      simp only [Option.some_inj] at hb
      subst hb
      refine ⟨List.mem_append_left _ hp1, hp2, ?_⟩
      intro y hy
      rcases List.mem_append.mp hy with hy | hy
      · exact hp3 y hy
      · simp only [List.mem_singleton] at hy
        subst hy
        exact Bool.not_eq_true _ ▸ hlt

theorem bestCand_fold (w : Str) : ∀ (cands : List Str) (acc : Option (ℚ × Str))
    (seen : List Str), GoodAcc w seen acc →
    GoodAcc w (seen ++ cands) (cands.foldl (bcStep w) acc)
  | [], acc, seen, h => by simpa using h
  | x :: rest, acc, seen, h => by
    have h2 := bestCand_fold w rest (bcStep w acc x) (seen ++ [x]) (bcStep_good h)
    simpa using h2

theorem bestCand_spec {w : Str} {cands : List Str} {r : ℚ} {m : Str}
    (h : bestCand w cands = some (r, m)) :
    m ∈ cands ∧ r = similarity m w ∧
      ∀ x ∈ cands, candLt (r, m) (similarity x w, x) = false := by
  have hg : GoodAcc w [] none := ⟨fun _ => rfl, fun b hb => by simp at hb⟩
  have hgood := bestCand_fold w cands none [] hg
  unfold bestCand at h
  rw [h] at hgood
  obtain ⟨-, hs⟩ := hgood
  have hres := hs (r, m) rfl
  simpa using hres

theorem bcStep_isSome (w : Str) (acc : Option (ℚ × Str)) (x : Str) :
    (bcStep w acc x).isSome = true := by
  cases acc with
  | none => rfl
  | some p =>
    simp only [bcStep]
    by_cases hlt : candLt p (similarity x w, x) = true
    · rw [if_pos hlt]; rfl
    · rw [if_neg hlt]; rfl

theorem foldl_bcStep_isSome (w : Str) : ∀ (rest : List Str) (acc : Option (ℚ × Str)),
    acc.isSome = true → ((rest.foldl (bcStep w) acc)).isSome = true
  | [], _, h => h
  | x :: rest, acc, _ => foldl_bcStep_isSome w rest (bcStep w acc x) (bcStep_isSome w acc x)

theorem bestCand_isSome {w : Str} {cands : List Str} (h : cands ≠ []) :
    (bestCand w cands).isSome = true := by
  cases cands with
  | nil => exact absurd rfl h
  | cons x rest =>
    unfold bestCand
    rw [List.foldl_cons]
    exact foldl_bcStep_isSome w rest _ (bcStep_isSome w none x)

/-- Claim C1: for every key and catalog, `fuzzy_find` returns the key itself
with confidence 1 when it is literally present (whatever the cutoff);
otherwise, when some candidate reaches the cutoff it returns a best-scoring
candidate with confidence 9/10; otherwise it returns no match with
confidence 0.  The confidence is always 1, 9/10 or 0, and the matched key
is absent exactly when the confidence is 0. -/
theorem claim_C1_resolver (key : Str) (catalog : List Str) (cutoff : ℚ) :
    (key ∈ catalog → fuzzy_find key catalog cutoff = (some key, 1)) ∧
    (key ∉ catalog →
      ((∃ x ∈ catalog, cutoff ≤ similarity x key) →
        ∃ m, fuzzy_find key catalog cutoff = (some m, mkRat 9 10) ∧ m ∈ catalog ∧
          cutoff ≤ similarity m key ∧
          ∀ x ∈ catalog, similarity x key ≤ similarity m key) ∧
      ((∀ x ∈ catalog, similarity x key < cutoff) →
        fuzzy_find key catalog cutoff = (none, 0))) ∧
    ((fuzzy_find key catalog cutoff).2 = 1 ∨
      (fuzzy_find key catalog cutoff).2 = mkRat 9 10 ∨
      (fuzzy_find key catalog cutoff).2 = 0) ∧
    ((fuzzy_find key catalog cutoff).1 = none ↔ (fuzzy_find key catalog cutoff).2 = 0) := by
  by_cases hmem : key ∈ catalog
  · have he : fuzzy_find key catalog cutoff = (some key, 1) := by
      unfold fuzzy_find
      rw [if_pos hmem]
    refine ⟨fun _ => he, fun hn => absurd hmem hn, ?_, ?_⟩
    · rw [he]; left; rfl
    · rw [he]
      constructor
      · intro h0; exact absurd h0 (by simp)
      · intro h0
        have h1 : (1 : ℚ) = 0 := h0
        exact absurd h1 one_ne_zero
  · have hff : fuzzy_find key catalog cutoff =
        (match get_close_matches1 key catalog cutoff with
          | some m => (some m, mkRat 9 10)
          | none => (none, 0)) := by
      unfold fuzzy_find
      rw [if_neg hmem]
    cases hg : get_close_matches1 key catalog cutoff with
    | some m =>
      have he : fuzzy_find key catalog cutoff = (some m, mkRat 9 10) := by
        rw [hff, hg]
      unfold get_close_matches1 at hg
      obtain ⟨p, hp, hp2⟩ := Option.map_eq_some'.mp hg
      have hpm : p = (p.1, m) := by
        cases p
        simp only at hp2 ⊢
        rw [hp2]
      rw [hpm] at hp
      obtain ⟨hmf, hr, hmax⟩ := bestCand_spec hp
      have hmcat : m ∈ catalog := (List.mem_filter.mp hmf).1
      have hmcut : cutoff ≤ similarity m key :=
        of_decide_eq_true (List.mem_filter.mp hmf).2
      refine ⟨fun hn => absurd hn hmem, fun _ => ⟨?_, ?_⟩, ?_, ?_⟩
      · intro _
        refine ⟨m, he, hmcat, hmcut, ?_⟩
        intro x hx
        by_cases hpx : cutoff ≤ similarity x key
        · have hxf : x ∈ catalog.filter (fun y => decide (cutoff ≤ similarity y key)) :=
            List.mem_filter.mpr ⟨hx, decide_eq_true hpx⟩
          have hc := hmax x hxf
          unfold candLt at hc
          simp only [Bool.or_eq_false_iff, decide_eq_false_iff_not] at hc
          calc similarity x key ≤ p.1 := not_lt.mp hc.1
          _ = similarity m key := hr
        · exact le_trans (le_of_lt (not_le.mp hpx)) hmcut
      · intro hall
        exact absurd hmcut (not_le.mpr (hall m hmcat))
      · rw [he]; right; left; rfl
      · rw [he]
        constructor
        · intro h0; exact absurd h0 (by simp)
        · intro h0
          have h1 : mkRat 9 10 = 0 := h0
          exact absurd h1 (by decide)
    | none =>
      have he : fuzzy_find key catalog cutoff = (none, 0) := by
        rw [hff, hg]
      have hfilter : catalog.filter (fun y => decide (cutoff ≤ similarity y key)) = [] := by
        by_contra hne
        have hs := bestCand_isSome (w := key) hne
        unfold get_close_matches1 at hg
        have hbn := Option.map_eq_none'.mp hg
        rw [hbn] at hs
        simp at hs
      refine ⟨fun hn => absurd hn hmem, fun _ => ⟨?_, fun _ => he⟩, ?_, ?_⟩
      · rintro ⟨x, hx, hxc⟩
        exfalso
        have hxf : x ∈ catalog.filter (fun y => decide (cutoff ≤ similarity y key)) :=
          List.mem_filter.mpr ⟨hx, decide_eq_true hxc⟩
        rw [hfilter] at hxf
        simp at hxf
      · rw [he]; right; right; rfl
      · rw [he]; simp

/-- Witness for C1: a key literally in the catalog resolves to itself with
confidence 1 at cutoff 18/25. -/
theorem claim_C1_resolver_witness :
    fuzzy_find "intercessor squad".data ["intercessor squad".data] (mkRat 18 25) =
      (some "intercessor squad".data, 1) :=
  (claim_C1_resolver "intercessor squad".data ["intercessor squad".data] (mkRat 18 25)).1
    (by decide)

/-- Claim C8 (amended): resolution is deterministic — equal inputs give
equal results — and when several catalog candidates tie on the best
similarity, the lexicographically-greatest (last) key among them is the one
returned, because `heapq.nlargest` compares `(score, key)` tuples. -/
theorem claim_C8_deterministic_tiebreak :
    (∀ (k1 k2 : Str) (c1 c2 : List Str) (q1 q2 : ℚ),
      k1 = k2 → c1 = c2 → q1 = q2 → fuzzy_find k1 c1 q1 = fuzzy_find k2 c2 q2) ∧
    (∀ (key : Str) (catalog : List Str) (cutoff : ℚ) (m : Str),
      key ∉ catalog →
      fuzzy_find key catalog cutoff = (some m, mkRat 9 10) →
      ∀ x ∈ catalog, similarity x key = similarity m key →
        cutoff ≤ similarity x key → x = m ∨ strLtB x m = true) := by
  constructor
  · intro k1 k2 c1 c2 q1 q2 hk hc hq
    rw [hk, hc, hq]
  · intro key catalog cutoff m hmem he x hx hsx hcx
    unfold fuzzy_find at he
    rw [if_neg hmem] at he
    cases hgc : get_close_matches1 key catalog cutoff with
    | none =>
      rw [hgc] at he
      simp at he
    | some m0 =>
      rw [hgc] at he
      simp only [Prod.mk.injEq, Option.some_inj] at he
      have hm0 : m0 = m := he.1
      subst hm0
      unfold get_close_matches1 at hgc
      obtain ⟨p, hp, hp2⟩ := Option.map_eq_some'.mp hgc
      have hpm : p = (p.1, m0) := by
        cases p
        simp only at hp2 ⊢
        rw [hp2]
      rw [hpm] at hp
      obtain ⟨hmf, hr, hmax⟩ := bestCand_spec hp
      have hxf : x ∈ catalog.filter (fun y => decide (cutoff ≤ similarity y key)) :=
        List.mem_filter.mpr ⟨hx, decide_eq_true hcx⟩
      have hc := hmax x hxf
      unfold candLt at hc
      simp only [Bool.or_eq_false_iff] at hc
      have hB : decide (p.1 = similarity x key) = true := by
        rw [hr, hsx]
        simp
      have hC : strLtB m0 x = false := by
        have hc2 := hc.2
        rw [hB] at hc2
        simpa using hc2
      rcases strLtB_conn m0 x hC with h' | h'
      · exact Or.inr h'
      · exact Or.inl h'.symm

/-- C8 counterexample: the key "ab" is equally similar (score 1/2) to the
catalog keys "ax" and "bx"; with cutoff 2/5 the resolver returns "bx", the
lexicographically-last of the tied candidates, not the first ("ax"). -/
theorem claim_C8_counterexample :
    ("ab".data ∉ ["ax".data, "bx".data]) ∧
    similarity "ax".data "ab".data = similarity "bx".data "ab".data ∧
    (mkRat 2 5 ≤ similarity "ax".data "ab".data) ∧
    strLtB "ax".data "bx".data = true ∧
    fuzzy_find "ab".data ["ax".data, "bx".data] (mkRat 2 5) =
      (some "bx".data, mkRat 9 10) ∧
    some "bx".data ≠ (some "ax".data : Option Str) := by
  decide

/-- Witness for C8 (amended), instantiated at the tied two-candidate
catalog: the returned key "bx" is lexicographically above the tied "ax". -/
theorem claim_C8_witness :
    "ax".data = "bx".data ∨ strLtB "ax".data "bx".data = true :=
  claim_C8_deterministic_tiebreak.2 "ab".data ["ax".data, "bx".data] (mkRat 2 5)
    "bx".data (by decide) (by decide) "ax".data (by decide) (by decide) (by decide)

theorem foldl_preserve {α β : Type} (P : α → Prop) (f : α → β → α)
    (hf : ∀ x b, P x → P (f x b)) : ∀ (l : List β) (a : α), P a → P (l.foldl f a)
  | [], _, ha => ha
  | b :: l, a, ha => foldl_preserve P f hf l (f a b) (hf a b ha)

theorem metaStep_title (a : Army) (l : Str) :
    (metaStep a l).title = a.title ∧ (metaStep a l).points_total = a.points_total := by
  constructor <;>
  · unfold metaStep
    dsimp only
    repeat' split
    all_goals rfl

theorem metaScan_title (a : Army) (ls : List Str) :
    (metaScan a ls).title = a.title ∧ (metaScan a ls).points_total = a.points_total := by
  unfold metaScan
  exact foldl_preserve (fun x => x.title = a.title ∧ x.points_total = a.points_total)
    metaStep (fun x b hx => ⟨(metaStep_title x b).1.trans hx.1,
      (metaStep_title x b).2.trans hx.2⟩) _ a ⟨rfl, rfl⟩

theorem parse_export_army (text : Str) :
    (parse_export_txt text).1.title =
      (parseArmyHead ((splitlines text).map rstripWS)).1 ∧
    (parse_export_txt text).1.points_total =
      (parseArmyHead ((splitlines text).map rstripWS)).2 := by
  unfold parse_export_txt
  dsimp only
  exact metaScan_title _ _

theorem lookupU_bumpCount_self : ∀ (units : List (Str × UnitInfo)) (key : Str)
    (info : UnitInfo), lookupU units key = some info →
    lookupU (bumpCount units key) key = some { info with count := info.count + 1 }
  | [], _, _, h => by simp [lookupU] at h
  | (k, v) :: rest, key, info, h => by
    by_cases hk : k = key
    · subst hk
      unfold lookupU at h
      rw [if_pos rfl] at h
      unfold bumpCount
      rw [if_pos rfl]
      unfold lookupU
      rw [if_pos rfl]
      simp only [Option.some_inj] at h ⊢
      rw [h]
    · unfold lookupU at h
      rw [if_neg hk] at h
      unfold bumpCount
      rw [if_neg hk]
      unfold lookupU
      rw [if_neg hk]
      exact lookupU_bumpCount_self rest key info h

theorem lookupU_bumpCount_other : ∀ (units : List (Str × UnitInfo)) (key k' : Str),
    k' ≠ key → lookupU (bumpCount units key) k' = lookupU units k'
  | [], _, _, _ => rfl
  | (k, v) :: rest, key, k', hne => by
    by_cases hk : k = key
    · subst hk
      unfold bumpCount
      rw [if_pos rfl]
      unfold lookupU
      by_cases hk' : k = k'
      · exact absurd hk'.symm hne
      · rw [if_neg hk', if_neg hk']
    · unfold bumpCount
      rw [if_neg hk]
      unfold lookupU
      by_cases hk' : k = k'
      · rw [if_pos hk', if_pos hk']
      · rw [if_neg hk', if_neg hk']
        exact lookupU_bumpCount_other rest key k' hne

theorem bumpCount_length : ∀ (units : List (Str × UnitInfo)) (key : Str),
    (bumpCount units key).length = units.length
  | [], _ => rfl
  | (k, v) :: rest, key => by
    unfold bumpCount
    by_cases hk : k = key
    · rw [if_pos hk]
      rfl
    · rw [if_neg hk]
      simp only [List.length_cons]
      rw [bumpCount_length rest key]

theorem bumpCount_append_fresh : ∀ (units : List (Str × UnitInfo)) (key : Str)
    (v : UnitInfo), lookupU units key = none →
    bumpCount (units ++ [(key, v)]) key =
      units ++ [(key, { v with count := v.count + 1 })]
  | [], key, v, _ => by simp [bumpCount]
  | (k, w) :: rest, key, v, h => by
    unfold lookupU at h
    by_cases hk : k = key
    · rw [if_pos hk] at h
      exact absurd h (by simp)
    · rw [if_neg hk] at h
      simp only [List.cons_append]
      unfold bumpCount
      rw [if_neg hk]
      rw [bumpCount_append_fresh rest key v h]

theorem mem_bumpCount : ∀ (units : List (Str × UnitInfo)) (key : Str)
    (kv : Str × UnitInfo), kv ∈ bumpCount units key →
    kv ∈ units ∨ ∃ v : UnitInfo, (key, v) ∈ units ∧
      kv = (key, { v with count := v.count + 1 })
  | [], _, _, h => by simp [bumpCount] at h
  | (k, w) :: rest, key, kv, h => by
    by_cases hk : k = key
    · subst hk
      unfold bumpCount at h
      rw [if_pos rfl] at h
      rcases List.mem_cons.mp h with h | h
      · exact Or.inr ⟨w, List.mem_cons_self _ _, h⟩
      · exact Or.inl (List.mem_cons_of_mem _ h)
    · unfold bumpCount at h
      rw [if_neg hk] at h
      rcases List.mem_cons.mp h with h | h
      · exact Or.inl (by rw [h]; exact List.mem_cons_self _ _)
      · rcases mem_bumpCount rest key kv h with h' | ⟨v, hv, hkv⟩
        · exact Or.inl (List.mem_cons_of_mem _ h')
        · exact Or.inr ⟨v, List.mem_cons_of_mem _ hv, hkv⟩

theorem addUnitLine_fresh (units : List (Str × UnitInfo)) (key name : Str)
    (pts : Nat) (sec : Option Str) (h : lookupU units key = none) :
    addUnitLine units key name pts sec = units ++ [(key, ⟨name, 1, pts, sec⟩)] := by
  unfold addUnitLine
  rw [h]
  rw [bumpCount_append_fresh units key _ h]

theorem addUnitLine_existing (units : List (Str × UnitInfo)) (key name : Str)
    (pts : Nat) (sec : Option Str) (info : UnitInfo)
    (h : lookupU units key = some info) :
    lookupU (addUnitLine units key name pts sec) key =
      some { info with count := info.count + 1 } ∧
    (addUnitLine units key name pts sec).length = units.length ∧
    ∀ k', k' ≠ key →
      lookupU (addUnitLine units key name pts sec) k' = lookupU units k' := by
  unfold addUnitLine
  rw [h]
  exact ⟨lookupU_bumpCount_self units key info h, bumpCount_length units key,
    fun k' hk' => lookupU_bumpCount_other units key k' hk'⟩

theorem counts_ge_one_addUnitLine (units : List (Str × UnitInfo)) (key name : Str)
    (pts : Nat) (sec : Option Str) (h : ∀ kv ∈ units, 1 ≤ (kv.2).count) :
    ∀ kv ∈ addUnitLine units key name pts sec, 1 ≤ (kv.2).count := by
  intro kv hkv
  cases hl : lookupU units key with
  | none =>
    rw [addUnitLine_fresh units key name pts sec hl] at hkv
    rcases List.mem_append.mp hkv with h' | h'
    · exact h kv h'
    · simp only [List.mem_singleton] at h'
      rw [h']
  | some info =>
    unfold addUnitLine at hkv
    rw [hl] at hkv
    rcases mem_bumpCount units key kv hkv with h' | ⟨v, hv, hkv'⟩
    · exact h kv h'
    · rw [hkv']
      exact Nat.le_add_left 1 v.count

theorem counts_ge_one_stepLine (st : PState) (il : Nat × Str)
    (h : ∀ kv ∈ st.units, 1 ≤ (kv.2).count) :
    ∀ kv ∈ (stepLine st il).units, 1 ≤ (kv.2).count := by
  unfold stepLine
  dsimp only
  split
  · exact h
  split
  · exact h
  split
  · exact h
  split
  · exact h
  split
  · exact h
  split
  · exact h
  exact counts_ge_one_addUnitLine _ _ _ _ _ h

/-- Claim C2: a repeated normalized unit name increments the existing
entry's count in place (display, per-model cost and section of the first
occurrence are untouched, and no entry is added); a fresh name appends an
entry with count 1; every parsed unit has count ≥ 1; and a title plus the
same unit line three times parses to a single entry with count 3. -/
theorem claim_C2_count_aggregation :
    (∀ (units : List (Str × UnitInfo)) (key name : Str) (pts : Nat)
        (sec : Option Str) (info : UnitInfo),
      lookupU units key = some info →
        lookupU (addUnitLine units key name pts sec) key =
          some { info with count := info.count + 1 } ∧
        (addUnitLine units key name pts sec).length = units.length ∧
        (∀ k', k' ≠ key →
          lookupU (addUnitLine units key name pts sec) k' = lookupU units k')) ∧
    (∀ (units : List (Str × UnitInfo)) (key name : Str) (pts : Nat) (sec : Option Str),
      lookupU units key = none →
        addUnitLine units key name pts sec = units ++ [(key, ⟨name, 1, pts, sec⟩)]) ∧
    (∀ text : Str, ∀ kv ∈ (parse_export_txt text).2, 1 ≤ (kv.2).count) ∧
    (parse_export_txt ("My List\nIntercessor Squad (100 points)\nIntercessor Squad (100 points)\nIntercessor Squad (100 points)".data)).2 =
      [("intercessor squad".data, ⟨"Intercessor Squad".data, 3, 100, none⟩)] := by
  refine ⟨fun units key name pts sec info h =>
      addUnitLine_existing units key name pts sec info h,
    fun units key name pts sec h => addUnitLine_fresh units key name pts sec h,
    ?_, by decide⟩
  intro text kv hkv
  unfold parse_export_txt at hkv
  dsimp only at hkv
  refine foldl_preserve (fun st : PState => ∀ kv ∈ st.units, 1 ≤ (kv.2).count)
    stepLine (fun st il hst => counts_ge_one_stepLine st il hst) _ ⟨none, []⟩ ?_ kv hkv
  intro kv0 h0
  simp at h0

/-- Witness for C2: incrementing an existing entry at a concrete input. -/
theorem claim_C2_witness :
    lookupU (addUnitLine [("a".data, ⟨"A".data, 2, 10, none⟩)] "a".data "A".data 10 none)
      "a".data = some ⟨"A".data, 3, 10, none⟩ :=
  (claim_C2_count_aggregation.1 [("a".data, ⟨"A".data, 2, 10, none⟩)] "a".data "A".data
    10 none ⟨"A".data, 2, 10, none⟩ (by decide)).1

/-- Claim C3 (amended): the title comes from the FIRST line only — when
that line is non-empty after trimming it is stored truncated at its first
parenthesis (falling back to the whole line when truncation leaves
nothing), and the total point value is the first "(<N> points)" occurrence
ANYWHERE in that line; an empty or missing first line leaves both unset
even if a later line is non-empty. -/
theorem claim_C3_title_source (text : Str) :
    (∀ l0, ((splitlines text).map rstripWS).head? = some l0 → stripWS l0 ≠ [] →
      (parse_export_txt text).1.title = some (titleOf (stripWS l0)) ∧
      (parse_export_txt text).1.points_total = findPointsAnywhere (stripWS l0)) ∧
    (((splitlines text).map rstripWS).head? = none →
      (parse_export_txt text).1.title = none ∧
      (parse_export_txt text).1.points_total = none) ∧
    (∀ l0, ((splitlines text).map rstripWS).head? = some l0 → stripWS l0 = [] →
      (parse_export_txt text).1.title = none ∧
      (parse_export_txt text).1.points_total = none) := by
  obtain ⟨ht, hp⟩ := parse_export_army text
  refine ⟨?_, ?_, ?_⟩
  · intro l0 h0 hne
    rw [ht, hp]
    cases hls : (splitlines text).map rstripWS with
    | nil =>
      rw [hls] at h0
      simp at h0
    | cons x rest =>
      rw [hls] at h0
      simp only [List.head?_cons, Option.some_inj] at h0
      subst h0
      unfold parseArmyHead
      dsimp only
      rw [if_neg hne]
      exact ⟨rfl, rfl⟩
  · intro h0
    rw [ht, hp]
    cases hls : (splitlines text).map rstripWS with
    | nil => exact ⟨rfl, rfl⟩
    | cons x rest =>
      rw [hls] at h0
      simp at h0
  · intro l0 h0 hemp
    rw [ht, hp]
    cases hls : (splitlines text).map rstripWS with
    | nil =>
      rw [hls] at h0
      simp at h0
    | cons x rest =>
      rw [hls] at h0
      simp only [List.head?_cons, Option.some_inj] at h0
      subst h0
      unfold parseArmyHead
      dsimp only
      rw [if_pos hemp]
      exact ⟨rfl, rfl⟩

/-- C3 counterexample: in an export whose first line is blank, the first
NON-empty line "My List (500 points)" is not taken as the title — both the
title and the total stay unset. -/
theorem claim_C3_counterexample :
    stripWS (((splitlines "\nMy List (500 points)".data).map rstripWS).getD 1 []) =
      "My List (500 points)".data ∧
    (parse_export_txt "\nMy List (500 points)".data).1.title ≠ some "My List".data ∧
    (parse_export_txt "\nMy List (500 points)".data).1.title = none ∧
    (parse_export_txt "\nMy List (500 points)".data).1.points_total = none := by
  decide

/-- Witness for C3 (amended) at the export "test (995 points)". -/
theorem claim_C3_witness :
    (parse_export_txt "test (995 points)".data).1.title =
      some (titleOf (stripWS "test (995 points)".data)) ∧
    (parse_export_txt "test (995 points)".data).1.points_total =
      findPointsAnywhere (stripWS "test (995 points)".data) :=
  (claim_C3_title_source "test (995 points)".data).1 "test (995 points)".data
    (by decide) (by decide)

/-- Claim C10: in `normalize_timing` a missing phase defaults to
"command", a missing step to "start", and a missing player to "you" (blue
label); an aliased step name maps to its canonical step and any other step
name passes through unchanged.  A record with a missing player always
yields a result. -/
theorem claim_C10_timing_defaults :
    (∀ (w : Timing) (p s l : Str), normalize_timing w = some (p, s, l) →
      (w.phase = none → p = "command".data) ∧
      (w.step = none → s = "start".data) ∧
      (w.player = none → l = "🟦 Strat · ".data)) ∧
    (∀ w : Timing, w.player = none → ∃ p s l, normalize_timing w = some (p, s, l)) ∧
    (∀ (w : Timing) (st v : Str), w.step = some st → alookup stepAlias st = some v →
      ∀ p s l, normalize_timing w = some (p, s, l) → s = v) ∧
    (∀ (w : Timing) (st : Str), w.step = some st → alookup stepAlias st = none →
      ∀ p s l, normalize_timing w = some (p, s, l) → s = st) := by
  refine ⟨?_, ?_, ?_, ?_⟩
  · intro w p s l h
    unfold normalize_timing at h
    dsimp only at h
    cases hpf : prefixFor (w.player.getD "you".data) with
    | none => rw [hpf] at h; simp at h
    | some pre =>
      rw [hpf] at h
      simp only [Option.some_inj, Prod.mk.injEq] at h
      obtain ⟨hph, hst, hlb⟩ := h
      refine ⟨?_, ?_, ?_⟩
      · intro hw; rw [← hph, hw]; rfl
      · intro hw; rw [← hst, hw]; rfl
      · intro hw
        rw [hw] at hpf
        simp only [Option.getD_none] at hpf
        have hpre : pre = "🟦".data := by
          have hyou : prefixFor "you".data = some "🟦".data := by decide
          rw [hyou] at hpf
          simpa using hpf.symm
        rw [← hlb, hpre]
        rfl
  · intro w hw
    unfold normalize_timing
    rw [hw]
    exact ⟨_, _, _, rfl⟩
  · intro w st v hw hal p s l h
    unfold normalize_timing at h
    dsimp only at h
    rw [hw] at h
    cases hpf : prefixFor (w.player.getD "you".data) with
    | none => rw [hpf] at h; simp at h
    | some pre =>
      rw [hpf] at h
      simp only [Option.some_inj, Prod.mk.injEq] at h
      rw [← h.2.1]
      simp only [Option.getD_some, Option.getD_none, hal]
  · intro w st hw hal p s l h
    unfold normalize_timing at h
    dsimp only at h
    rw [hw] at h
    cases hpf : prefixFor (w.player.getD "you".data) with
    | none => rw [hpf] at h; simp at h
    | some pre =>
      rw [hpf] at h
      simp only [Option.some_inj, Prod.mk.injEq] at h
      rw [← h.2.1]
      simp only [Option.getD_some, Option.getD_none, hal]

/-- Witness for C10: the all-defaults record yields the command/start/blue
triple, and the aliased step "any" maps to "start". -/
theorem claim_C10_witness :
    ("command".data = "command".data ∧ "start".data = "start".data ∧
      "🟦 Strat · ".data = "🟦 Strat · ".data) ∧
    "start".data = "start".data := by
  constructor
  · have h := (claim_C10_timing_defaults.1 ⟨none, none, none⟩ "command".data
      "start".data "🟦 Strat · ".data (by decide))
    exact ⟨h.1 rfl, h.2.1 rfl, h.2.2 rfl⟩
  · exact claim_C10_timing_defaults.2.2.1 ⟨none, some "any".data, none⟩ "any".data
      "start".data rfl (by decide) "command".data "start".data "🟦 Strat · ".data
      (by decide)

/-- Claim C4: a stratagem that neither lists the current (non-empty)
detachment nor the "All" wildcard contributes nothing to
`strat_items_by_phase`, wherever it occurs in the list; likewise (even
without the wildcard escape) for `add_stratagems_to_timeline`. -/
theorem claim_C4_detachment_filtering :
    (∀ (pre post : List Strat) (st : Strat) (d : Str), d ≠ [] →
      d ∉ st.detachment → "All".data ∉ st.detachment →
      strat_items_by_phase (pre ++ st :: post) (some d) =
        strat_items_by_phase (pre ++ post) (some d)) ∧
    (∀ (tl : Timeline) (pre post : List Strat) (st : Strat) (dn : Str),
      dn ∉ st.detachment →
      add_stratagems_to_timeline tl (pre ++ st :: post) dn =
        add_stratagems_to_timeline tl (pre ++ post) dn) := by
  constructor
  · intro pre post st d hne hd hall
    have hskip : ∀ b, processStrat (some d) b st = some b := by
      intro b
      unfold processStrat
      rw [if_pos]
      unfold skipStrat
      simp only [Bool.and_eq_true, Bool.not_eq_true', decide_eq_false_iff_not]
      refine ⟨⟨?_, hd⟩, hall⟩
      cases d with
      | nil => exact absurd rfl hne
      | cons c cs => rfl
    unfold strat_items_by_phase
    rw [List.foldlM_append, List.foldlM_append]
    cases hpre : List.foldlM (processStrat (some d)) [] pre with
    | none => rfl
    | some b =>
      show ((st :: post).foldlM (processStrat (some d)) b) =
        (post.foldlM (processStrat (some d)) b)
      rw [List.foldlM_cons, hskip b]
      rfl
  · intro tl pre post st dn hd
    have hskip : ∀ t, tlStratStep dn t st = some t := by
      intro t
      unfold tlStratStep
      rw [if_neg hd]
    unfold add_stratagems_to_timeline
    rw [List.foldlM_append, List.foldlM_append]
    cases hpre : List.foldlM (tlStratStep dn) tl pre with
    | none => rfl
    | some b =>
      show ((st :: post).foldlM (tlStratStep dn) b) = (post.foldlM (tlStratStep dn) b)
      rw [List.foldlM_cons, hskip b]
      rfl

/-- Witness for C4 at a one-stratagem list owned by another detachment. -/
theorem claim_C4_witness :
    strat_items_by_phase ([] ++ ⟨some "X".data, some 1, none, ["Other".data],
        [⟨none, none, none⟩]⟩ :: []) (some "Gladius Task Force".data) =
      strat_items_by_phase ([] ++ []) (some "Gladius Task Force".data) :=
  claim_C4_detachment_filtering.1 [] []
    ⟨some "X".data, some 1, none, ["Other".data], [⟨none, none, none⟩]⟩
    "Gladius Task Force".data (by decide) (by decide) (by decide)

theorem loadStep_fh (st : List (Str × YVal) × Option YVal) (d : YVal) :
    (loadStep st d).2 =
      if st.2.isNone && (fhBlock d).isSome then fhBlock d else st.2 := rfl

theorem load_fh_fold : ∀ (docs : List YVal) (st : List (Str × YVal) × Option YVal),
    (docs.foldl loadStep st).2 =
      (match st.2 with
        | some v => some v
        | none => docs.findSome? fhBlock)
  | [], st => by
    cases hs : st.2 with
    | some v => simp [hs]
    | none => simp [hs]
  | d :: docs, st => by
    rw [List.foldl_cons, load_fh_fold docs (loadStep st d), loadStep_fh]
    cases hs : st.2 with
    | some v => simp [hs]
    | none =>
      cases hf : fhBlock d with
      | some v => simp [hs, hf, List.findSome?_cons]
      | none => simp [hs, hf, List.findSome?_cons]

theorem lyStep_fh (st : Option YVal × Option YVal × List YVal × List YVal)
    (d : List (Str × YVal)) :
    (lyStep st d).2.1 =
      if st.2.1.isNone && (alookup d "faction_helpers".data).isSome
      then alookup d "faction_helpers".data else st.2.1 := rfl

theorem ly_fh_fold : ∀ (docs : List (List (Str × YVal)))
    (st : Option YVal × Option YVal × List YVal × List YVal),
    (docs.foldl lyStep st).2.1 =
      (match st.2.1 with
        | some v => some v
        | none => docs.findSome? (fun d => alookup d "faction_helpers".data))
  | [], st => by
    cases hs : st.2.1 with
    | some v => simp [hs]
    | none => simp [hs]
  | d :: docs, st => by
    rw [List.foldl_cons, ly_fh_fold docs (lyStep st d), lyStep_fh]
    cases hs : st.2.1 with
    | some v => simp [hs]
    | none =>
      cases hf : alookup d "faction_helpers".data with
      | some v => simp [hs, hf, List.findSome?_cons]
      | none => simp [hs, hf, List.findSome?_cons]

/-- Claim C6 (amended): in both loaders the faction helpers are determined
by the FIRST document carrying a top-level faction-helpers block (later
blocks are ignored); when no document has one, `load_units_from_yaml_dir`
substitutes the built-in per-phase default reminder set while streamlit's
`load_yaml_files` substitutes an empty mapping — in both cases the value
handed downstream is a total (never absent) value. -/
theorem claim_C6_first_helpers_default (docs : List YVal)
    (docs2 : List (List (Str × YVal))) :
    (load_units_from_yaml_dir docs).2 =
      (docs.findSome? fhBlock).getD defaultFactionHelpers ∧
    (load_yaml_files docs2).faction_helpers =
      (docs2.findSome? (fun d => alookup d "faction_helpers".data)).getD
        (YVal.dict []) := by
  constructor
  · unfold load_units_from_yaml_dir
    dsimp only
    rw [load_fh_fold docs ([], none)]
  · unfold load_yaml_files
    dsimp only
    rw [ly_fh_fold docs2 (none, none, [], [])]

/-- C6 counterexample: with no documents at all, streamlit's loader hands
an empty mapping downstream, which is not the built-in default reminder
set (the one `load_units_from_yaml_dir` substitutes). -/
theorem claim_C6_counterexample :
    (load_yaml_files []).faction_helpers = YVal.dict [] ∧
    YVal.dict [] ≠ defaultFactionHelpers ∧
    (load_units_from_yaml_dir []).2 = defaultFactionHelpers := by
  refine ⟨rfl, ?_, rfl⟩
  intro h
  simp [defaultFactionHelpers] at h

theorem alookup_dictSet {α : Type} : ∀ (r : List (Str × α)) (k : Str) (v : α)
    (k' : Str), alookup (dictSet r k v) k' = if k = k' then some v else alookup r k'
  | [], k, v, k' => rfl
  | (k0, w) :: rest, k, v, k' => by
    unfold dictSet
    by_cases h0 : k0 = k
    · rw [if_pos h0]
      unfold alookup
      by_cases h1 : k0 = k'
      · rw [if_pos h1, if_pos (h0.symm.trans h1)]
      · rw [if_neg h1, if_neg (fun h => h1 (h0.trans h)), if_neg h1]
    · rw [if_neg h0]
      unfold alookup
      by_cases h1 : k0 = k'
      · rw [if_pos h1, if_neg (fun h => h0 (h1.trans h.symm)), if_pos h1]
      · rw [if_neg h1, if_neg h1]
        exact alookup_dictSet rest k v k'

theorem alookup_foldl_dictSet {α : Type} (f : Str → α) :
    ∀ (keys : List Str) (r0 : List (Str × α)) (k : Str),
    alookup (keys.foldl (fun r key => dictSet r key (f key)) r0) k =
      if k ∈ keys then some (f k) else alookup r0 k
  | [], r0, k => by rw [List.foldl_nil, if_neg (List.not_mem_nil k)]
  | q :: rest, r0, k => by
    rw [List.foldl_cons, alookup_foldl_dictSet f rest (dictSet r0 q (f q)) k]
    by_cases hk : k ∈ rest
    · rw [if_pos hk, if_pos (List.mem_cons_of_mem q hk)]
    · rw [if_neg hk, alookup_dictSet]
      by_cases hq : q = k
      · rw [if_pos hq, if_pos (by rw [← hq]; exact List.mem_cons_self q rest), hq]
      · rw [if_neg hq, if_neg (by
          intro hm
          rcases List.mem_cons.mp hm with h | h
          · exact hq h.symm
          · exact hk h)]

theorem alookup_isSome_iff_mem {α : Type} : ∀ (r : List (Str × α)) (k : Str),
    (alookup r k).isSome = true ↔ k ∈ r.map Prod.fst
  | [], k => by simp [alookup]
  | (k0, v) :: rest, k => by
    unfold alookup
    by_cases h : k0 = k
    · rw [if_pos h]
      simp only [Option.isSome_some, List.map_cons, List.mem_cons]
      constructor
      · intro _
        exact Or.inl h.symm
      · intro _
        trivial
    · simp only [List.map_cons, List.mem_cons]
      rw [if_neg h, alookup_isSome_iff_mem rest k]
      constructor
      · exact Or.inr
      · rintro (h' | h')
        · exact absurd h'.symm h
        · exact h'

theorem alookup_shapeOf : ∀ (r : Bucket2) (p : Str),
    alookup (shapeOf r) p = (alookup r p).map (fun d => d.map Prod.fst)
  | [], _ => rfl
  | (k, d) :: rest, p => by
    simp only [shapeOf, List.map_cons]
    unfold alookup
    by_cases h : k = p
    · rw [if_pos h, if_pos h]
      rfl
    · rw [if_neg h, if_neg h]
      exact alookup_shapeOf rest p

theorem extendAt_fst {α : Type} : ∀ (d : List (Str × List α)) (s : Str)
    (more : List α), (extendAt d s more).map Prod.fst = d.map Prod.fst
  | [], _, _ => rfl
  | (k, vs) :: rest, s, more => by
    unfold extendAt
    by_cases h : k = s
    · rw [if_pos h]
      rfl
    · rw [if_neg h]
      simp only [List.map_cons]
      rw [extendAt_fst rest s more]

theorem shapeOf_modifyAt (f : List (Str × List Str) → List (Str × List Str))
    (hf : ∀ d, (f d).map Prod.fst = d.map Prod.fst) :
    ∀ (r : Bucket2) (p : Str), shapeOf (modifyAt r p f) = shapeOf r
  | [], _ => rfl
  | (k, d) :: rest, p => by
    unfold modifyAt
    by_cases h : k = p
    · rw [if_pos h]
      simp only [shapeOf, List.map_cons]
      rw [hf d]
    · rw [if_neg h]
      simp only [shapeOf, List.map_cons]
      have := shapeOf_modifyAt f hf rest p
      unfold shapeOf at this
      rw [this]

theorem shapeOf_extendAt2 (r : Bucket2) (p s : Str) (msgs : List Str) :
    shapeOf (extendAt2 r p s msgs) = shapeOf r :=
  shapeOf_modifyAt _ (fun d => extendAt_fst d s msgs) r p

theorem shape_foldl {β : Type} (g : Bucket2 → β → Bucket2)
    (hg : ∀ acc x, shapeOf (g acc x) = shapeOf acc) :
    ∀ (l : List β) (r : Bucket2), shapeOf (l.foldl g r) = shapeOf r
  | [], _ => rfl
  | x :: l, r => by
    rw [List.foldl_cons, shape_foldl g hg l (g r x), hg r x]

theorem shapeOf_genOne (r : Bucket2) (pp : Str × Payload) :
    shapeOf (genOne r pp) = shapeOf r := by
  unfold genOne
  cases pp.2 with
  | flat msgs =>
    cases alookup r pp.1 with
    | none => rfl
    | some d =>
      dsimp only
      split
      · exact shapeOf_extendAt2 _ _ _ _
      · rfl
  | stepped m =>
    refine shape_foldl _ ?_ m r
    intro acc sv
    cases alookup acc pp.1 with
    | none => rfl
    | some d =>
      dsimp only
      split
      · exact shapeOf_extendAt2 _ _ _ _
      · rfl

theorem shapeOf_unitPhaseStep (nm p : Str) (r : Bucket2) (sv : Str × List Str) :
    shapeOf (unitPhaseStep nm p r sv) = shapeOf r := by
  unfold unitPhaseStep
  cases alookup r p with
  | none => rfl
  | some d =>
    dsimp only
    split
    · exact shapeOf_extendAt2 _ _ _ _
    · rfl

theorem shapeOf_unitTipsStep (r : Bucket2) (u : SUnit) :
    shapeOf (unitTipsStep r u) = shapeOf r := by
  unfold unitTipsStep
  refine shape_foldl _ ?_ u.play_tips r
  intro acc pt
  cases alookup acc pt.1 with
  | none => rfl
  | some d =>
    dsimp only
    exact shape_foldl _ (fun acc2 sv => shapeOf_unitPhaseStep u.name pt.1 acc2 sv) pt.2 acc

theorem shapeOf_collect (phases : SPhases) (fh : SFH) (us : List SUnit) :
    shapeOf (collect_phase_tips phases fh us) = shapeOf (initPh phases) := by
  unfold collect_phase_tips
  dsimp only
  rw [shape_foldl unitTipsStep shapeOf_unitTipsStep us,
    shape_foldl genOne shapeOf_genOne fh.generic_reminders]

theorem alookup_initPh (phases : SPhases) (p : Str) :
    alookup (initPh phases) p =
      if p ∈ phases.order then some (stepsInit ((alookup phases.steps p).getD []))
      else none := by
  unfold initPh
  rw [alookup_foldl_dictSet (fun q => stepsInit ((alookup phases.steps q).getD []))
    phases.order [] p]
  rfl

theorem alookup_stepsInit (steps : List Str) (s : Str) :
    alookup (stepsInit steps) s = if s ∈ steps then some [] else none := by
  unfold stepsInit
  rw [alookup_foldl_dictSet (fun _ => ([] : List Str)) steps [] s]
  rfl

/-- Claim C5: the streamlit aggregation has an entry for exactly the
declared phases, each with exactly the declared steps, whatever the
helpers and units supplied; and the HTML board always renders one box per
`PHASE_ORDER` phase, using the explicit `&mdash;` placeholder when a phase
collected no items. -/
theorem claim_C5_timeline_completeness (phases : SPhases) (fh : SFH)
    (us : List SUnit) (fhc : Option FHc) (mus : List MUnit) (strats : Bucket) :
    (∀ p ∈ phases.order, ∃ d, alookup (collect_phase_tips phases fh us) p = some d ∧
      ∀ s, (∃ msgs, alookup d s = some msgs) ↔
        s ∈ (alookup phases.steps p).getD []) ∧
    (∀ p, (∃ d, alookup (collect_phase_tips phases fh us) p = some d) ↔
      p ∈ phases.order) ∧
    (phaseBoxes fhc mus strats).length = PHASE_ORDER.length ∧
    (∀ kl ∈ PHASE_ORDER, phase_box fhc mus strats kl.1 kl.2 ∈
      phaseBoxes fhc mus strats) ∧
    (∀ key label, phase_items fhc mus strats key = [] →
      phase_box fhc mus strats key label =
        "<div class='box'><div class='phase'>".data ++ htmlEscape label ++
          "</div><ul>".data ++ altItem ++ "</ul></div>".data) := by
  have hsh : shapeOf (collect_phase_tips phases fh us) = shapeOf (initPh phases) :=
    shapeOf_collect phases fh us
  refine ⟨?_, ?_, ?_, ?_, ?_⟩
  · intro p hp
    have hinit : alookup (initPh phases) p =
        some (stepsInit ((alookup phases.steps p).getD [])) := by
      rw [alookup_initPh, if_pos hp]
    have h1 : alookup (shapeOf (collect_phase_tips phases fh us)) p =
        alookup (shapeOf (initPh phases)) p := by rw [hsh]
    rw [alookup_shapeOf, alookup_shapeOf, hinit] at h1
    obtain ⟨d, hd, hdm⟩ := Option.map_eq_some'.mp h1
    refine ⟨d, hd, ?_⟩
    intro s
    have hmem : (alookup d s).isSome = true ↔
        s ∈ (alookup phases.steps p).getD [] := by
      rw [alookup_isSome_iff_mem d s, hdm, ← alookup_isSome_iff_mem
        (stepsInit ((alookup phases.steps p).getD [])) s, alookup_stepsInit]
      by_cases hs : s ∈ (alookup phases.steps p).getD []
      · rw [if_pos hs]
        simp [hs]
      · rw [if_neg hs]
        simp [hs]
    constructor
    · rintro ⟨msgs, hm⟩
      exact hmem.mp (by rw [hm]; rfl)
    · intro hs
      exact Option.isSome_iff_exists.mp (hmem.mpr hs)
  · intro p
    have h1 : (alookup (collect_phase_tips phases fh us) p).isSome =
        (alookup (initPh phases) p).isSome := by
      have h2 : alookup (shapeOf (collect_phase_tips phases fh us)) p =
          alookup (shapeOf (initPh phases)) p := by rw [hsh]
      rw [alookup_shapeOf, alookup_shapeOf] at h2
      have h3 := congrArg Option.isSome h2
      simpa using h3
    constructor
    · rintro ⟨d, hd⟩
      have h4 : (alookup (collect_phase_tips phases fh us) p).isSome = true := by
        rw [hd]; rfl
      rw [h1, alookup_initPh] at h4
      by_cases hp : p ∈ phases.order
      · exact hp
      · rw [if_neg hp] at h4
        simp at h4
    · intro hp
      have h4 : (alookup (initPh phases) p).isSome = true := by
        rw [alookup_initPh, if_pos hp]; rfl
      rw [← h1] at h4
      exact Option.isSome_iff_exists.mp h4
  · unfold phaseBoxes
    rw [List.length_map]
  · intro kl hkl
    unfold phaseBoxes
    exact List.mem_map.mpr ⟨kl, hkl, rfl⟩
  · intro key label hempty
    unfold phase_box
    dsimp only
    rw [hempty]
    rfl

/-- Witness for C5 at a one-phase, one-step timeline definition. -/
theorem claim_C5_witness :
    ∃ d, alookup (collect_phase_tips ⟨["command".data],
        [("command".data, ["start".data])]⟩ ⟨[]⟩ []) "command".data = some d ∧
      ∀ s, (∃ msgs, alookup d s = some msgs) ↔
        s ∈ (alookup [("command".data, ["start".data])] "command".data).getD [] :=
  (claim_C5_timeline_completeness ⟨["command".data], [("command".data, ["start".data])]⟩
    ⟨[]⟩ [] none [] []).1 "command".data (by decide)

theorem alookup_modifyAt {α : Type} : ∀ (r : List (Str × α)) (k : Str) (f : α → α)
    (k' : Str), alookup (modifyAt r k f) k' =
      if k = k' then (alookup r k').map f else alookup r k'
  | [], k, f, k' => by
    by_cases h : k = k'
    · rw [if_pos h]
      rfl
    · rw [if_neg h]
      rfl
  | (k0, v) :: rest, k, f, k' => by
    unfold modifyAt
    by_cases h0 : k0 = k
    · rw [if_pos h0]
      unfold alookup
      by_cases h1 : k0 = k'
      · rw [if_pos h1, if_pos (h0.symm.trans h1), if_pos h1]
        rfl
      · rw [if_neg h1, if_neg (fun h => h1 (h0.trans h)), if_neg h1]
    · rw [if_neg h0]
      unfold alookup
      by_cases h1 : k0 = k'
      · rw [if_pos h1, if_neg (fun h => h0 (h1.trans h.symm)), if_pos h1]
      · rw [if_neg h1, if_neg h1, alookup_modifyAt rest k f k']

theorem alookup_extendAt {α : Type} : ∀ (d : List (Str × List α)) (s : Str)
    (more : List α) (s' : Str), alookup (extendAt d s more) s' =
      if s = s' then (alookup d s').map (fun vs => vs ++ more) else alookup d s'
  | [], s, more, s' => by
    by_cases h : s = s'
    · rw [if_pos h]
      rfl
    · rw [if_neg h]
      rfl
  | (k0, vs) :: rest, s, more, s' => by
    unfold extendAt
    by_cases h0 : k0 = s
    · rw [if_pos h0]
      unfold alookup
      by_cases h1 : k0 = s'
      · rw [if_pos h1, if_pos (h0.symm.trans h1), if_pos h1]
        rfl
      · rw [if_neg h1, if_neg (fun h => h1 (h0.trans h)), if_neg h1]
    · rw [if_neg h0]
      unfold alookup
      by_cases h1 : k0 = s'
      · rw [if_pos h1, if_neg (fun h => h0 (h1.trans h.symm)), if_pos h1]
      · rw [if_neg h1, if_neg h1, alookup_extendAt rest s more s']

theorem tipMem_extendAt2 {r : Bucket2} {p0 s0 : Str} {more : List Str}
    {p s : Str} {msg : Str} (h : tipMem (extendAt2 r p0 s0 more) p s msg) :
    tipMem r p s msg ∨ (p = p0 ∧ s = s0 ∧ msg ∈ more) := by
  obtain ⟨d, msgs, hd, hm, hmem⟩ := h
  unfold extendAt2 at hd
  rw [alookup_modifyAt] at hd
  by_cases hp : p0 = p
  · rw [if_pos hp] at hd
    obtain ⟨d0, hd0, hd0'⟩ := Option.map_eq_some'.mp hd
    subst hd0'
    rw [alookup_extendAt] at hm
    by_cases hs : s0 = s
    · rw [if_pos hs] at hm
      obtain ⟨m0, hm0, hm0'⟩ := Option.map_eq_some'.mp hm
      subst hm0'
      rcases List.mem_append.mp hmem with h' | h'
      · exact Or.inl ⟨d0, m0, hd0, hm0, h'⟩
      · exact Or.inr ⟨hp.symm, hs.symm, h'⟩
    · rw [if_neg hs] at hm
      exact Or.inl ⟨d0, msgs, hd0, hm, hmem⟩
  · rw [if_neg hp] at hd
    exact Or.inl ⟨d, msgs, hd, hm, hmem⟩

theorem tipMem_foldl {β : Type} (g : Bucket2 → β → Bucket2) (Q : Str → Prop)
    (hg : ∀ acc x p s msg, tipMem (g acc x) p s msg → tipMem acc p s msg ∨ Q msg) :
    ∀ (l : List β) (r : Bucket2) (p s : Str) (msg : Str),
      tipMem (l.foldl g r) p s msg → tipMem r p s msg ∨ Q msg
  | [], _, _, _, _, h => Or.inl h
  | x :: l, r, p, s, msg, h => by
    rcases tipMem_foldl g Q hg l (g r x) p s msg h with h' | h'
    · exact hg r x p s msg h'
    · exact Or.inr h'

theorem tipMem_unitPhaseStep {nm p0 : Str} {r : Bucket2} {sv : Str × List Str}
    {p s msg : Str} (h : tipMem (unitPhaseStep nm p0 r sv) p s msg) :
    tipMem r p s msg ∨ ∃ m, msg = "[".data ++ nm ++ "] ".data ++ m := by
  unfold unitPhaseStep at h
  cases hl : alookup r p0 with
  | none =>
    rw [hl] at h
    exact Or.inl h
  | some d =>
    rw [hl] at h
    dsimp only at h
    by_cases hc : ((alookup d sv.1).isSome && !sv.2.isEmpty) = true
    · rw [if_pos hc] at h
      rcases tipMem_extendAt2 h with h' | ⟨-, -, hmm⟩
      · exact Or.inl h'
      · obtain ⟨m, -, hme⟩ := List.mem_map.mp hmm
        exact Or.inr ⟨m, hme.symm⟩
    · rw [if_neg hc] at h
      exact Or.inl h

theorem tipMem_unitTipsStep (u : SUnit) (r : Bucket2) (p s msg : Str)
    (h : tipMem (unitTipsStep r u) p s msg) :
    tipMem r p s msg ∨ ∃ m, msg = "[".data ++ u.name ++ "] ".data ++ m := by
  unfold unitTipsStep at h
  refine tipMem_foldl _ (fun msg' => ∃ m, msg' = "[".data ++ u.name ++ "] ".data ++ m)
    ?_ u.play_tips r p s msg h
  intro acc pt p' s' msg' h'
  cases hl : alookup acc pt.1 with
  | none =>
    rw [hl] at h'
    exact Or.inl h'
  | some d =>
    rw [hl] at h'
    dsimp only at h'
    exact tipMem_foldl (unitPhaseStep u.name pt.1)
      (fun msg'' => ∃ m, msg'' = "[".data ++ u.name ++ "] ".data ++ m)
      (fun acc2 sv p'' s'' msg'' h'' => tipMem_unitPhaseStep h'')
      pt.2 acc p' s' msg' h'

/-- Claim C9 (amended): unresolved units contribute no items to a phase
box; every item a resolved unit contributes is prefixed with the CATALOG
unit's canonical name (`u.get("name", display)`), not the export display
name; and in streamlit's `collect_phase_tips` every message added by the
unit pass carries the `[{u['name']}]` catalog-name prefix. -/
theorem claim_C9_attribution :
    (∀ (fh : Option FHc) (key : Str) (mu : MUnit), mu.unit = none →
      unit_phase_items fh key mu = []) ∧
    (∀ (fh : Option FHc) (key : Str) (mu : MUnit) (u : CUnit), mu.unit = some u →
      ∀ item ∈ unit_phase_items fh key mu,
        ∃ b, b ∈ (alookup (collect_phase_tips_for_unit fh u) key).getD [] ∧
          item = "<li><b>".data ++ htmlEscape (u.name.getD mu.display) ++
            "</b> — ".data ++ htmlEscape b ++ "</li>".data) ∧
    (∀ (u : SUnit) (r : Bucket2) (p s msg : Str), tipMem (unitTipsStep r u) p s msg →
      tipMem r p s msg ∨ ∃ m, msg = "[".data ++ u.name ++ "] ".data ++ m) := by
  refine ⟨?_, ?_, fun u r p s msg h => tipMem_unitTipsStep u r p s msg h⟩
  · intro fh key mu h
    unfold unit_phase_items
    rw [h]
  · intro fh key mu u h item hitem
    unfold unit_phase_items at hitem
    rw [h] at hitem
    dsimp only at hitem
    obtain ⟨b, hb, hbe⟩ := List.mem_map.mp hitem
    exact ⟨b, hb, hbe.symm⟩

/-- C9 counterexample: a fuzzily-matched unit (display "Intercesor Squad",
catalog name "Intercessor Squad") contributes an item prefixed with the
catalog name, which differs from the display-name-prefixed item the claim
predicts. -/
theorem claim_C9_counterexample :
    unit_phase_items none "movement".data
      ⟨"Intercesor Squad".data, some ⟨some "Intercessor Squad".data,
        [("movement".data, Payload.flat ["go".data])]⟩⟩ =
      ["<li><b>Intercessor Squad</b> — go</li>".data] ∧
    (["<li><b>Intercessor Squad</b> — go</li>".data] : List Str) ≠
      ["<li><b>Intercesor Squad</b> — go</li>".data] := by
  decide

/-- Witness for C9 (amended): an unresolved unit contributes nothing. -/
theorem claim_C9_witness :
    unit_phase_items none "command".data ⟨"X".data, none⟩ = [] :=
  claim_C9_attribution.1 none "command".data ⟨"X".data, none⟩ rfl

end CheatSheet
